import Mathlib

/-!
# Verification of the yappr client-side cache manager

Shallow embedding of `src/lib/cache-manager.ts` (class `CacheManager`, the
`cached` method decorator, and — modelled from the spec where the source is
absent from the snapshot — the stable key encoder `safeStringify` and the
request batcher `createBatcher`).

JavaScript `Map`s are embedded as insertion-ordered association lists
(`Map.set` replaces in place, `Map.delete` removes, iteration follows
insertion order), `Set`s as duplicate-free insertion-ordered lists, and
`Date.now()` as an explicit `now : Nat` argument.  The event-loop semantics
of the async methods are embedded as explicit state transformers on a system
state: each `async` body is split at its suspension points, promises are
named by identifiers, and a settlement log records each promise's outcome
(every holder of a promise id observes exactly the logged settlement).

The model takes the `typeof window === 'undefined'` branch of the source
(no `localStorage`), which is the source's own non-browser configuration;
none of the verified claims concerns the persistence path.
-/

set_option autoImplicit false

namespace Yappr

/-! ## Association-list model of JavaScript `Map` and `Set` -/

variable {κ : Type} [DecidableEq κ]

/-- `Map.get k` : first (unique) binding of `k`. -/
def mapGet {β : Type} (m : List (κ × β)) (k : κ) : Option β :=
  match m with
  | [] => none
  | (k', v) :: rest => if k' = k then some v else mapGet rest k

/-- `Map.set k v` : replace in place if present (JS keeps insertion order),
else append. -/
def mapSet {β : Type} (m : List (κ × β)) (k : κ) (v : β) :
    List (κ × β) :=
  match m with
  | [] => [(k, v)]
  | (k', v') :: rest =>
      if k' = k then (k, v) :: rest else (k', v') :: mapSet rest k v

/-- `Map.delete k` : remove the binding of `k` (if any). -/
def mapDel {β : Type} (m : List (κ × β)) (k : κ) :
    List (κ × β) :=
  match m with
  | [] => []
  | (k', v') :: rest =>
      if k' = k then rest else (k', v') :: mapDel rest k

/-- `Set.add x` : append if absent (JS `Set` keeps insertion order). -/
def setAdd (s : List String) (x : String) : List String :=
  if x ∈ s then s else s ++ [x]

/-- `Set.delete x` : remove `x`. -/
def setDel (s : List String) (x : String) : List String :=
  s.filter (fun y => y ≠ x)

@[simp] theorem mapGet_nil {β : Type} (k : κ) :
    mapGet ([] : List (κ × β)) k = none := rfl

@[simp] theorem mapGet_cons {β : Type} (k' k : κ) (v : β)
    (rest : List (κ × β)) :
    mapGet ((k', v) :: rest) k =
      if k' = k then some v else mapGet rest k := rfl

theorem mapGet_mapSet_self {β : Type} (m : List (κ × β)) (k : κ)
    (v : β) : mapGet (mapSet m k v) k = some v := by
  induction m with
  | nil => simp [mapSet]
  | cons hd tl ih =>
      obtain ⟨k', v'⟩ := hd
      by_cases h : k' = k <;> simp [mapSet, mapGet, h, ih]

theorem mapGet_mapSet_ne {β : Type} (m : List (κ × β)) (k k' : κ)
    (v : β) (h : k ≠ k') : mapGet (mapSet m k v) k' = mapGet m k' := by
  induction m with
  | nil => simp [mapSet, mapGet, h]
  | cons hd tl ih =>
      obtain ⟨k0, v0⟩ := hd
      by_cases h0 : k0 = k
      · subst h0; simp [mapSet, mapGet, h]
      · simp [mapSet, mapGet, h0, ih]

theorem mapGet_eq_none_of_not_mem {β : Type} (m : List (κ × β))
    (k : κ) (h : k ∉ m.map Prod.fst) : mapGet m k = none := by
  induction m with
  | nil => rfl
  | cons hd tl ih =>
      obtain ⟨k0, v0⟩ := hd
      simp only [List.map_cons, List.mem_cons] at h
      push_neg at h
      have hne : ¬k0 = k := fun he => h.1 he.symm
      simp [mapGet, hne, ih h.2]

theorem mapGet_mapDel_self {β : Type} (m : List (κ × β)) (k : κ)
    (hnd : (m.map Prod.fst).Nodup) : mapGet (mapDel m k) k = none := by
  induction m with
  | nil => simp [mapDel]
  | cons hd tl ih =>
      obtain ⟨k0, v0⟩ := hd
      simp only [List.map_cons, List.nodup_cons] at hnd
      by_cases h0 : k0 = k
      · subst h0
        simp only [mapDel, if_pos rfl]
        exact mapGet_eq_none_of_not_mem tl k0 hnd.1
      · simp only [mapDel, if_neg h0, mapGet, if_neg h0]
        exact ih hnd.2

theorem mapGet_mapDel_ne {β : Type} (m : List (κ × β)) (k k' : κ)
    (h : k ≠ k') : mapGet (mapDel m k) k' = mapGet m k' := by
  induction m with
  | nil => simp [mapDel]
  | cons hd tl ih =>
      obtain ⟨k0, v0⟩ := hd
      by_cases h0 : k0 = k
      · subst h0; simp [mapDel, mapGet, h]
      · simp [mapDel, mapGet, h0, ih]

/-! ## Cache Store (`CacheManager` fields `caches` / `tagIndex`) -/

/-- `CacheEntry<T>` from `src/lib/cache-manager.ts`. -/
structure CacheEntry (α : Type) where
  data : α
  timestamp : Nat
  ttl : Nat
  tags : List String
  deriving Repr, DecidableEq

/-- `CacheOptions` (`ttl?: number; tags?: string[]`). -/
structure CacheOptions where
  ttl : Option Nat := none
  tags : List String := []
  deriving Repr, DecidableEq

/-- The synchronous in-memory state of a `CacheManager`:
`caches : Map<string, Map<string, CacheEntry>>` and
`tagIndex : Map<string, Set<string>>`, plus the constructor's
`defaultTtl` (default `300000`). -/
structure CMState (α : Type) where
  caches : List (String × List (String × CacheEntry α))
  tagIndex : List (String × List String)
  defaultTtl : Nat := 300000
  deriving Repr, DecidableEq

/-- The composite key `` `${cacheName}:${key}` ``. -/
def jsCacheKey (cacheName key : String) : String :=
  cacheName ++ ":" ++ key

/-- `getCache(cacheName)` : the named map, or an empty one. -/
def getCache {α : Type} (s : CMState α) (cacheName : String) :
    List (String × CacheEntry α) :=
  (mapGet s.caches cacheName).getD []

/-- One step of `set`'s tag-index update:
`if (!tagIndex.has(tag)) tagIndex.set(tag, new Set());
tagIndex.get(tag).add(cacheKey)`. -/
def addTagStep (ck : String) (ti : List (String × List String))
    (tag : String) : List (String × List String) :=
  mapSet ti tag (setAdd ((mapGet ti tag).getD []) ck)

/-- `CacheManager.set` (private): store the entry, then add
`` `${cacheName}:${key}` `` to the tag-index bucket of each tag.
(The `localStorage` persistence branch is skipped: non-browser path.) -/
def cmSet {α : Type} (s : CMState α) (cacheName key : String) (data : α)
    (options : CacheOptions) (now : Nat) : CMState α :=
  let cache := getCache s cacheName
  let ttl := options.ttl.getD s.defaultTtl
  let entry : CacheEntry α := ⟨data, now, ttl, options.tags⟩
  let caches' := mapSet s.caches cacheName (mapSet cache key entry)
  let ck := jsCacheKey cacheName key
  let tagIndex' := options.tags.foldl (addTagStep ck) s.tagIndex
  { s with caches := caches', tagIndex := tagIndex' }

/-- One step of `delete`'s tag-index update:
`tagIndex.get(tag)?.delete(cacheKey);
if (tagIndex.get(tag)?.size === 0) tagIndex.delete(tag)`. -/
def removeTagStep (ck : String) (ti : List (String × List String))
    (tag : String) : List (String × List String) :=
  match mapGet ti tag with
  | none => ti
  | some bucket =>
      let bucket' := setDel bucket ck
      if bucket' = [] then mapDel ti tag else mapSet ti tag bucket'

/-- `CacheManager.delete`: if the entry exists, drop its cache key from the
bucket of each of the entry's tags (pruning emptied buckets), then remove
the entry; returns whether an entry was removed. -/
def cmDelete {α : Type} (s : CMState α) (cacheName key : String) :
    Bool × CMState α :=
  let cache := getCache s cacheName
  let ck := jsCacheKey cacheName key
  let tagIndex' :=
    match mapGet cache key with
    | none => s.tagIndex
    | some entry => entry.tags.foldl (removeTagStep ck) s.tagIndex
  let deleted := (mapGet cache key).isSome
  let caches' := mapSet s.caches cacheName (mapDel cache key)
  (deleted, { s with caches := caches', tagIndex := tagIndex' })

/-- `CacheManager.get` (private): return the live entry's data, lazily
deleting an expired entry; `Date.now()` is the explicit `now`.  The
`localStorage` hydration branch is skipped (non-browser path), so a memory
miss is a miss. -/
def cmGet {α : Type} (s : CMState α) (cacheName key : String) (now : Nat) :
    Option α × CMState α :=
  match mapGet (getCache s cacheName) key with
  | none => (none, s)
  | some entry =>
      if now - entry.timestamp > entry.ttl then
        (none, (cmDelete s cacheName key).2)
      else
        (some entry.data, s)

/-- `CacheManager.has`: `get(...) !== null` (with `get`'s eviction side
effect). -/
def cmHas {α : Type} (s : CMState α) (cacheName key : String) (now : Nat) :
    Bool × CMState α :=
  let (r, s') := cmGet s cacheName key now
  (r.isSome, s')

/-- JavaScript `s.split(':')` on the character list: the maximal
`':'`-separated fields. -/
def splitCols : List Char → List (List Char)
  | [] => [[]]
  | c :: rest =>
      if c = ':' then [] :: splitCols rest
      else
        match splitCols rest with
        | [] => [[c]]
        | f :: fs => (c :: f) :: fs

/-- JavaScript `cacheKey.split(':', 2)` destructured as
`[cacheName, key]`: the first two `':'`-separated fields (everything after
the second `':'` is discarded by the `limit` argument). -/
def jsSplit2 (s : String) : String × String :=
  let parts := splitCols s.data
  ((parts.headD []).asString, ((parts.drop 1).headD []).asString)

/-- The loop body of `CacheManager.invalidateByTag`: split the composite
cache key with `split(':', 2)`, `delete` the resulting pair, and count a
successful deletion. -/
def invalidateStep {α : Type} (acc : Nat × CMState α) (ck : String) :
    Nat × CMState α :=
  let (cacheName, key) := jsSplit2 ck
  let (deleted, s') := cmDelete acc.2 cacheName key
  (if deleted then acc.1 + 1 else acc.1, s')

/-- `CacheManager.invalidateByTag`: snapshot the tag's bucket
(`Array.from(entries)`), then run `invalidateStep` over it. -/
def cmInvalidateByTag {α : Type} (s : CMState α) (tag : String) :
    Nat × CMState α :=
  match mapGet s.tagIndex tag with
  | none => (0, s)
  | some entries => entries.foldl invalidateStep (0, s)

/-- `CacheManager.clear`: drop every entry of the namespace from the tag
index, then clear the namespace's map. -/
def cmClear {α : Type} (s : CMState α) (cacheName : String) : CMState α :=
  let cache := getCache s cacheName
  let tagIndex' := cache.foldl
    (fun ti (kv : String × CacheEntry α) =>
      kv.2.tags.foldl (removeTagStep (jsCacheKey cacheName kv.1)) ti)
    s.tagIndex
  { s with caches := mapSet s.caches cacheName [], tagIndex := tagIndex' }

/-! ## Event-loop model of `getOrFetch` (in-flight coordinator)

An `async` call to `getOrFetch` runs synchronously (no suspension point)
through: the cache probe, the in-flight probe, and — when both miss —
the start of the IIFE up to `await fetcher()` (which invokes the fetcher)
followed by `this.inflight.set(inflightKey, p)`.  That synchronous prefix
is `getOrFetchStart`.  The continuation after the fetcher settles is
`settleOk` / `settleErr` (the `try`/`finally` body: on success `set` then
delete the in-flight entry and resolve `p`; on failure delete the in-flight
entry and reject `p`).  Promises are identifiers; a settlement log maps a
promise id to the unique outcome every holder of that promise observes. -/

/-- Settlement of a promise: resolved value or rejection (error values are
opaque to the cache layer; modelled as strings). -/
inductive Outcome (α : Type) where
  | ok (v : α)
  | err (e : String)
  deriving Repr, DecidableEq

/-- What the synchronous prefix of a `getOrFetch` call returns to its
caller. -/
inductive StartRes (α : Type) where
  /-- `return cached` : the live cached value. -/
  | hit (v : α)
  /-- `return existing` : joined the in-flight promise `pid`. -/
  | joined (pid : Nat)
  /-- started a fresh fetch registered as promise `pid`
  (the fetcher was invoked). -/
  | started (pid : Nat)
  deriving Repr, DecidableEq

/-- A `CacheManager` plus the event-loop bookkeeping: the in-flight table
(`inflight : Map<string, Promise>` with promises as ids), a fresh-promise
counter, the test-harness fetch-invocation counter of spec §8.2, and the
settlement log. -/
structure FetchSys (α : Type) where
  cm : CMState α
  inflight : List (String × Nat)
  nextPid : Nat
  fetchCount : Nat
  settled : List (Nat × Outcome α)
  deriving Repr, DecidableEq

/-- Synchronous prefix of `CacheManager.getOrFetch`. -/
def getOrFetchStart {α : Type} (s : FetchSys α) (cacheName key : String)
    (now : Nat) : StartRes α × FetchSys α :=
  let (cached, cm') := cmGet s.cm cacheName key now
  match cached with
  | some v => (.hit v, { s with cm := cm' })
  | none =>
      let inflightKey := jsCacheKey cacheName key
      match mapGet s.inflight inflightKey with
      | some pid => (.joined pid, { s with cm := cm' })
      | none =>
          let pid := s.nextPid
          (.started pid,
            { s with
              cm := cm'
              inflight := mapSet s.inflight inflightKey pid
              nextPid := pid + 1
              fetchCount := s.fetchCount + 1 })

/-- Continuation of `getOrFetch` when `fetcher()` resolved with `result`:
`this.set(cacheName, key, result, options)`, then (`finally`)
`this.inflight.delete(inflightKey)`, and promise `pid` resolves with the
result. -/
def settleOk {α : Type} (s : FetchSys α) (cacheName key : String) (pid : Nat)
    (v : α) (options : CacheOptions) (now : Nat) : FetchSys α :=
  { s with
    cm := cmSet s.cm cacheName key v options now
    inflight := mapDel s.inflight (jsCacheKey cacheName key)
    settled := mapSet s.settled pid (.ok v) }

/-- Continuation of `getOrFetch` when `fetcher()` rejected with `e`:
(`finally`) `this.inflight.delete(inflightKey)` only — nothing is written
to the cache — and promise `pid` rejects with `e`. -/
def settleErr {α : Type} (s : FetchSys α) (cacheName key : String)
    (pid : Nat) (e : String) : FetchSys α :=
  { s with
    inflight := mapDel s.inflight (jsCacheKey cacheName key)
    settled := mapSet s.settled pid (.err e) }

/-! ## Event-loop model of `enqueueBatch`

`enqueueBatch` runs synchronously through: get-or-create the named queue,
create the caller's promise, `queue.keys.add(key)`,
`queue.resolvers.set(key, {resolve, reject})` (NOTE: `Map.set` replaces any
resolver previously registered for the same key), and arm the timer if it
is not armed.  When the timer fires, the callback snapshots `keys` and
`resolvers`, resets the queue, awaits `handler(keys)`, and then resolves
each key from the returned record — rejecting a key missing from the
record with `Error('Missing batched result for key: ' + k)` — or, if the
handler rejected, rejects every snapshotted resolver with that error. -/

/-- One entry of `CacheManager.batchQueues` (`options`/`handler` are fixed
by the first call and play no role in the verified properties; the timer
handle is a flag). -/
structure BQueue where
  keys : List String
  resolvers : List (String × Nat)
  timerActive : Bool
  deriving Repr, DecidableEq

/-- The batching state: the queues, a fresh-promise counter and the
settlement log. -/
structure BatchSys (α : Type) where
  queues : List (String × BQueue)
  nextPid : Nat
  settled : List (Nat × Outcome α)
  deriving Repr, DecidableEq

/-- Synchronous body of `CacheManager.enqueueBatch`: returns the new
promise handed to the caller. -/
def enqueueBatch {α : Type} (s : BatchSys α) (batchName key : String) :
    Nat × BatchSys α :=
  let q := (mapGet s.queues batchName).getD ⟨[], [], false⟩
  let pid := s.nextPid
  let q' : BQueue :=
    { keys := setAdd q.keys key
      resolvers := mapSet q.resolvers key pid
      timerActive := true }
  (pid, { s with queues := mapSet s.queues batchName q', nextPid := pid + 1 })

/-- The result of `await queue.handler(keys)`: the returned
`Record<string, T>` (as an association list), or the handler's
thrown/rejected error. -/
inductive HandlerRes (α : Type) where
  | ok (data : List (String × α))
  | thrown (e : String)
  deriving Repr, DecidableEq

/-- One iteration of the success loop of the flush callback:
`const r = resolvers.get(k); if (!r) continue;
if (k in data) r.resolve(data[k]);
else r.reject(new Error('Missing batched result for key: ' + k))`. -/
def flushOkStep {α : Type} (resolvers : List (String × Nat))
    (data : List (String × α)) (acc : BatchSys α) (k : String) :
    BatchSys α :=
  match mapGet resolvers k with
  | none => acc
  | some pid =>
      match mapGet data k with
      | some v => { acc with settled := mapSet acc.settled pid (.ok v) }
      | none =>
          { acc with
            settled := mapSet acc.settled pid
              (.err ("Missing batched result for key: " ++ k)) }

/-- One iteration of the failure loop:
`resolvers.forEach((r) => r.reject(e))`. -/
def flushErrStep {α : Type} (e : String) (acc : BatchSys α)
    (kv : String × Nat) : BatchSys α :=
  { acc with settled := mapSet acc.settled kv.2 (.err e) }

/-- The timer callback of `enqueueBatch`: snapshot and reset the queue,
then settle the snapshotted resolvers from the handler's result. -/
def batchFlush {α : Type} (s : BatchSys α) (batchName : String)
    (hres : HandlerRes α) : BatchSys α :=
  match mapGet s.queues batchName with
  | none => s
  | some q =>
      let s1 : BatchSys α :=
        { s with queues := mapSet s.queues batchName ⟨[], [], false⟩ }
      match hres with
      | .ok data => q.keys.foldl (flushOkStep q.resolvers data) s1
      | .thrown e => q.resolvers.foldl (flushErrStep e) s1

/-! ## Basic lemmas about the Cache Store operations -/

theorem mem_keys_mapSet {β : Type} (m : List (κ × β)) (k x : κ) (v : β) :
    x ∈ (mapSet m k v).map Prod.fst ↔ x ∈ m.map Prod.fst ∨ x = k := by
  induction m with
  | nil => simp [mapSet]
  | cons hd tl ih =>
      obtain ⟨k0, v0⟩ := hd
      by_cases h0 : k0 = k
      · subst h0; simp [mapSet]; tauto
      · simp [mapSet, h0, ih]; tauto

theorem mapSet_keys_nodup {β : Type} (m : List (κ × β)) (k : κ) (v : β)
    (h : (m.map Prod.fst).Nodup) :
    ((mapSet m k v).map Prod.fst).Nodup := by
  induction m with
  | nil => simp [mapSet]
  | cons hd tl ih =>
      obtain ⟨k0, v0⟩ := hd
      simp only [List.map_cons, List.nodup_cons] at h
      by_cases h0 : k0 = k
      · subst h0
        simpa [mapSet, List.nodup_cons] using h
      · simp only [mapSet, if_neg h0, List.map_cons, List.nodup_cons]
        refine ⟨?_, ih h.2⟩
        intro hmem
        rcases (mem_keys_mapSet tl k k0 v).1 hmem with h3 | h3
        · exact h.1 h3
        · exact h0 h3

theorem getCache_cmSet_self {α : Type} (s : CMState α) (ns k : String)
    (v : α) (o : CacheOptions) (now : Nat) :
    getCache (cmSet s ns k v o now) ns =
      mapSet (getCache s ns) k ⟨v, now, o.ttl.getD s.defaultTtl, o.tags⟩ := by
  simp [cmSet, getCache, mapGet_mapSet_self]

theorem getCache_cmDelete_self {α : Type} (s : CMState α) (ns k : String) :
    getCache (cmDelete s ns k).2 ns = mapDel (getCache s ns) k := by
  simp only [cmDelete, getCache]
  simp [mapGet_mapSet_self]

/-! ## Claim C5: TTL expiry with read-time lazy eviction -/

/-- Claim C5: for every namespace, key, value and TTL `T`, immediately
after a write with ttl `T` the entry is live (`has` is true); once more
than `T` milliseconds have elapsed since the write, `has` returns false
and a read returns absent and removes the expired entry from the
namespace's map as a side effect (read-time lazy eviction). -/
theorem C5_ttl_expiry {α : Type} (s : CMState α) (ns k : String) (v : α)
    (T : Nat) (tags : List String) (now t₁ : Nat)
    (hnd : ((getCache s ns).map Prod.fst).Nodup) :
    (cmHas (cmSet s ns k v ⟨some T, tags⟩ now) ns k now).1 = true ∧
    (now + T < t₁ →
      (cmHas (cmSet s ns k v ⟨some T, tags⟩ now) ns k t₁).1 = false ∧
      (cmGet (cmSet s ns k v ⟨some T, tags⟩ now) ns k t₁).1 = none ∧
      mapGet
        (getCache ((cmGet (cmSet s ns k v ⟨some T, tags⟩ now) ns k t₁).2) ns)
        k = none) := by
  have hcache := getCache_cmSet_self s ns k v ⟨some T, tags⟩ now
  have hentry :
      mapGet (getCache (cmSet s ns k v ⟨some T, tags⟩ now) ns) k =
        some ⟨v, now, T, tags⟩ := by
    rw [hcache]; exact mapGet_mapSet_self _ _ _
  constructor
  · simp [cmHas, cmGet, hentry]
  · intro hlt
    have hexp : t₁ - now > T := by omega
    have hget :
        cmGet (cmSet s ns k v ⟨some T, tags⟩ now) ns k t₁ =
          (none, (cmDelete (cmSet s ns k v ⟨some T, tags⟩ now) ns k).2) := by
      simp [cmGet, hentry, hexp]
    refine ⟨by simp [cmHas, hget], by simp [hget], ?_⟩
    rw [hget]
    simp only [getCache_cmDelete_self, hcache]
    exact mapGet_mapDel_self _ _ (mapSet_keys_nodup _ _ _ hnd)

/-- Concrete instantiation of `C5_ttl_expiry` (namespace `"ns"`, key
`"k"`, value `7`, ttl `50`, written at time `100`, read at time `151`). -/
theorem C5_ttl_expiry_witness :
    (cmHas (cmSet (⟨[], [], 300000⟩ : CMState Nat) "ns" "k" 7
        ⟨some 50, ["t"]⟩ 100) "ns" "k" 100).1 = true ∧
    (cmHas (cmSet (⟨[], [], 300000⟩ : CMState Nat) "ns" "k" 7
        ⟨some 50, ["t"]⟩ 100) "ns" "k" 151).1 = false ∧
    (cmGet (cmSet (⟨[], [], 300000⟩ : CMState Nat) "ns" "k" 7
        ⟨some 50, ["t"]⟩ 100) "ns" "k" 151).1 = none ∧
    mapGet
      (getCache ((cmGet (cmSet (⟨[], [], 300000⟩ : CMState Nat) "ns" "k" 7
        ⟨some 50, ["t"]⟩ 100) "ns" "k" 151).2) "ns") "k" = none := by
  have h := C5_ttl_expiry (⟨[], [], 300000⟩ : CMState Nat) "ns" "k" 7 50
    ["t"] 100 151 (by simp [getCache, mapGet])
  exact ⟨h.1, h.2 (by omega)⟩

/-! ## Claims C1 and C2: in-flight de-duplication and failure handling -/

theorem cmGet_no_entry {α : Type} (s : CMState α) (ns k : String)
    (now : Nat) (h : mapGet (getCache s ns) k = none) :
    cmGet s ns k now = (none, s) := by
  simp [cmGet, h]

theorem cmGet_fst_none_lookup {α : Type} (s : CMState α) (ns k : String)
    (now : Nat) (hnd : ((getCache s ns).map Prod.fst).Nodup)
    (h : (cmGet s ns k now).1 = none) :
    mapGet (getCache ((cmGet s ns k now).2) ns) k = none := by
  by_cases hmem : mapGet (getCache s ns) k = none
  · rw [cmGet_no_entry s ns k now hmem]; exact hmem
  · obtain ⟨entry, hentry⟩ := Option.ne_none_iff_exists'.1 hmem
    by_cases hexp : now - entry.timestamp > entry.ttl
    · have hget : cmGet s ns k now = (none, (cmDelete s ns k).2) := by
        simp [cmGet, hentry, hexp]
      rw [hget]
      simp only [getCache_cmDelete_self]
      exact mapGet_mapDel_self _ _ hnd
    · exfalso
      have : (cmGet s ns k now).1 = some entry.data := by
        simp [cmGet, hentry, hexp]
      rw [h] at this; exact Option.noConfusion this

theorem cmGet_snd_defaultTtl {α : Type} (s : CMState α) (cn key : String)
    (now : Nat) : ((cmGet s cn key now).2).defaultTtl = s.defaultTtl := by
  unfold cmGet
  rcases mapGet (getCache s cn) key with _ | entry
  · rfl
  · by_cases hexp : now - entry.timestamp > entry.ttl <;>
      simp [hexp, cmDelete]

theorem getOrFetchStart_hit {α : Type} (s : FetchSys α)
    (cn key : String) (now : Nat) (entry : CacheEntry α)
    (h : mapGet (getCache s.cm cn) key = some entry)
    (hexp : ¬(now - entry.timestamp > entry.ttl)) :
    getOrFetchStart s cn key now = (.hit entry.data, s) := by
  have hget : cmGet s.cm cn key now = (some entry.data, s.cm) := by
    simp [cmGet, h, hexp]
  simp [getOrFetchStart, hget]

/-- Running a list of further `getOrFetch` calls for the same
`(cacheName, key)` back to back on the event loop (each at its own
`Date.now()`), collecting what each call returns. -/
def runStarts {α : Type} (s : FetchSys α) (cacheName key : String) :
    List Nat → List (StartRes α) × FetchSys α
  | [] => ([], s)
  | t :: rest =>
      let (r, s') := getOrFetchStart s cacheName key t
      let (rs, s'') := runStarts s' cacheName key rest
      (r :: rs, s'')

theorem joined_state_start {α : Type} (s : FetchSys α) (ns k : String)
    (pid t : Nat) (hc : mapGet (getCache s.cm ns) k = none)
    (hi : mapGet s.inflight (jsCacheKey ns k) = some pid) :
    getOrFetchStart s ns k t = (.joined pid, s) := by
  simp [getOrFetchStart, cmGet_no_entry s.cm ns k t hc, hi]

theorem runStarts_joined {α : Type} (s : FetchSys α) (ns k : String)
    (pid : Nat) (nows : List Nat)
    (hc : mapGet (getCache s.cm ns) k = none)
    (hi : mapGet s.inflight (jsCacheKey ns k) = some pid) :
    runStarts s ns k nows = (nows.map (fun _ => .joined pid), s) := by
  induction nows with
  | nil => rfl
  | cons t rest ih =>
      simp [runStarts, joined_state_start s ns k pid t hc hi, ih]

/-- Claim C1: with no live cache entry and no in-flight entry for
`(cacheName, key)`, the first of `N` back-to-back `getOrFetch` calls (all
issued before any settles) starts the fetch — invoking the fetcher — and
registers promise `pid = s.nextPid`; every further call joins that same
promise; the fetcher is invoked exactly once in total; and whichever way
that single fetch settles, the settlement log assigns `pid` that one
outcome, so all `N` callers (each holding `pid`) observe the same resolved
value or the same rejection. -/
theorem C1_inflight_dedup {α : Type} (s : FetchSys α) (ns k : String)
    (now₀ : Nat) (nows : List Nat)
    (hnd : ((getCache s.cm ns).map Prod.fst).Nodup)
    (hc : (cmGet s.cm ns k now₀).1 = none)
    (hi : mapGet s.inflight (jsCacheKey ns k) = none) :
    (getOrFetchStart s ns k now₀).1 = .started s.nextPid ∧
    (runStarts ((getOrFetchStart s ns k now₀).2) ns k nows).1 =
      nows.map (fun _ => .joined s.nextPid) ∧
    (runStarts ((getOrFetchStart s ns k now₀).2) ns k nows).2.fetchCount =
      s.fetchCount + 1 ∧
    (∀ (v : α) (opts : CacheOptions) (t : Nat),
      mapGet (settleOk
        ((runStarts ((getOrFetchStart s ns k now₀).2) ns k nows).2)
        ns k s.nextPid v opts t).settled s.nextPid = some (.ok v)) ∧
    (∀ e : String,
      mapGet (settleErr
        ((runStarts ((getOrFetchStart s ns k now₀).2) ns k nows).2)
        ns k s.nextPid e).settled s.nextPid = some (.err e)) := by
  have hstart : getOrFetchStart s ns k now₀ =
      (.started s.nextPid,
        { s with
          cm := (cmGet s.cm ns k now₀).2
          inflight := mapSet s.inflight (jsCacheKey ns k) s.nextPid
          nextPid := s.nextPid + 1
          fetchCount := s.fetchCount + 1 }) := by
    simp only [getOrFetchStart]
    rw [show cmGet s.cm ns k now₀ = (none, (cmGet s.cm ns k now₀).2) from by
      rcases hres : cmGet s.cm ns k now₀ with ⟨r, cm'⟩
      rw [hres] at hc; simp at hc; simp [hc]]
    simp [hi]
  have hc' : mapGet (getCache ((cmGet s.cm ns k now₀).2) ns) k = none :=
    cmGet_fst_none_lookup s.cm ns k now₀ hnd hc
  have hi' : mapGet (mapSet s.inflight (jsCacheKey ns k) s.nextPid)
      (jsCacheKey ns k) = some s.nextPid := mapGet_mapSet_self _ _ _
  rw [hstart]
  have hrun := runStarts_joined
    { s with
      cm := (cmGet s.cm ns k now₀).2
      inflight := mapSet s.inflight (jsCacheKey ns k) s.nextPid
      nextPid := s.nextPid + 1
      fetchCount := s.fetchCount + 1 } ns k s.nextPid nows hc' hi'
  refine ⟨rfl, ?_, ?_, ?_, ?_⟩
  · rw [hrun]
  · rw [hrun]
  · intro v opts t
    rw [hrun]
    exact mapGet_mapSet_self _ _ _
  · intro e
    rw [hrun]
    exact mapGet_mapSet_self _ _ _

/-- Concrete instantiation of `C1_inflight_dedup`: an empty manager, three
simultaneous calls for `("posts", "p1")`. -/
theorem C1_inflight_dedup_witness :
    (getOrFetchStart (⟨⟨[], [], 300000⟩, [], 0, 0, []⟩ : FetchSys Nat)
      "posts" "p1" 100).1 = .started 0 ∧
    (runStarts ((getOrFetchStart (⟨⟨[], [], 300000⟩, [], 0, 0, []⟩ :
        FetchSys Nat) "posts" "p1" 100).2) "posts" "p1" [100, 101]).1 =
      [.joined 0, .joined 0] ∧
    (runStarts ((getOrFetchStart (⟨⟨[], [], 300000⟩, [], 0, 0, []⟩ :
        FetchSys Nat) "posts" "p1" 100).2) "posts" "p1"
        [100, 101]).2.fetchCount = 1 := by
  have h := C1_inflight_dedup (⟨⟨[], [], 300000⟩, [], 0, 0, []⟩ :
      FetchSys Nat) "posts" "p1" 100 [100, 101]
    (by simp [getCache, mapGet]) (by simp [cmGet, getCache, mapGet]) rfl
  exact ⟨h.1, h.2.1, h.2.2.1⟩

/-- Claim C2: while a fetch for `(cacheName, key)` is in flight as promise
`pid` (so nothing is stored at the key), if the fetcher rejects with `e`
then: the in-flight entry is removed; the cache store is untouched; the
settlement log assigns `pid` the rejection `e` (which every joined holder
of `pid` observes); and an immediately following `getOrFetch` call starts a
fresh fetch — a new, distinct, unsettled promise — invoking the fetcher
again rather than hanging or replaying the old rejection. -/
theorem C2_failure_clears_inflight {α : Type} (s : FetchSys α)
    (ns k : String) (pid : Nat) (e : String) (t : Nat)
    (hin : (s.inflight.map Prod.fst).Nodup)
    (hc : mapGet (getCache s.cm ns) k = none)
    (hi : mapGet s.inflight (jsCacheKey ns k) = some pid)
    (hpid : pid < s.nextPid)
    (hfresh : mapGet s.settled s.nextPid = none) :
    mapGet (settleErr s ns k pid e).inflight (jsCacheKey ns k) = none ∧
    (settleErr s ns k pid e).cm = s.cm ∧
    mapGet (settleErr s ns k pid e).settled pid = some (.err e) ∧
    (getOrFetchStart (settleErr s ns k pid e) ns k t).1 =
      .started s.nextPid ∧
    s.nextPid ≠ pid ∧
    mapGet (settleErr s ns k pid e).settled s.nextPid = none ∧
    (getOrFetchStart (settleErr s ns k pid e) ns k t).2.fetchCount =
      s.fetchCount + 1 := by
  have hne : s.nextPid ≠ pid := Nat.ne_of_gt hpid
  have h1 : mapGet (settleErr s ns k pid e).inflight (jsCacheKey ns k) =
      none := mapGet_mapDel_self _ _ hin
  have h1' : mapGet (mapDel s.inflight (jsCacheKey ns k))
      (jsCacheKey ns k) = none := h1
  refine ⟨h1, rfl, mapGet_mapSet_self _ _ _, ?_, hne, ?_, ?_⟩
  · simp [getOrFetchStart, cmGet_no_entry _ ns k t hc, settleErr, h1']
  · exact (mapGet_mapSet_ne s.settled pid s.nextPid _
      (fun h => hne h.symm)).trans hfresh
  · simp [getOrFetchStart, cmGet_no_entry _ ns k t hc, settleErr, h1']

/-- Concrete instantiation of `C2_failure_clears_inflight`: one in-flight
fetch for `("posts", "p1")` as promise `0`, rejecting with `"boom"`. -/
theorem C2_failure_clears_inflight_witness :
    mapGet (settleErr (⟨⟨[], [], 300000⟩, [("posts:p1", 0)], 1, 1, []⟩ :
        FetchSys Nat) "posts" "p1" 0 "boom").inflight "posts:p1" = none ∧
    mapGet (settleErr (⟨⟨[], [], 300000⟩, [("posts:p1", 0)], 1, 1, []⟩ :
        FetchSys Nat) "posts" "p1" 0 "boom").settled 0 =
      some (.err "boom") ∧
    (getOrFetchStart (settleErr (⟨⟨[], [], 300000⟩, [("posts:p1", 0)],
        1, 1, []⟩ : FetchSys Nat) "posts" "p1" 0 "boom") "posts" "p1"
        200).1 = .started 1 := by
  have h := C2_failure_clears_inflight (⟨⟨[], [], 300000⟩,
      [("posts:p1", 0)], 1, 1, []⟩ : FetchSys Nat) "posts" "p1" 0 "boom"
    200 (by decide) (by simp [getCache, mapGet]) (by decide) (by decide)
    (by decide)
  refine ⟨?_, h.2.2.1, ?_⟩
  · have := h.1
    simpa [jsCacheKey] using this
  · have := h.2.2.2.1
    simpa [jsCacheKey] using this

/-! ## Claim C3: tag invalidation (fails for keys containing a colon)

`invalidateByTag` recovers `(cacheName, key)` from the composite cache key
with `cacheKey.split(':', 2)`, whose `limit` argument truncates everything
after the second field.  A key containing `':'` is therefore split to the
wrong pair: the `delete` misses, the entry survives, and the count omits
it. -/

/-- Counterexample to claim C3 as stated: the entry `("ns", "a:b")` is
registered under tag `"T"`, yet `invalidateByTag "T"` returns `0` (not
`1`) and leaves the entry cached and live. -/
theorem C3_colon_key_counterexample :
    (cmInvalidateByTag
      (cmSet (⟨[], [], 300000⟩ : CMState Nat) "ns" "a:b" 1
        ⟨some 1000, ["T"]⟩ 0) "T").1 = 0 ∧
    (cmHas (cmInvalidateByTag
      (cmSet (⟨[], [], 300000⟩ : CMState Nat) "ns" "a:b" 1
        ⟨some 1000, ["T"]⟩ 0) "T").2 "ns" "a:b" 0).1 = true := by
  constructor <;> rfl

/-! ## Claim C4: tag-index consistency (fails on overwrite)

`CacheManager.set` only adds the pair to the buckets of the new tags; it
never removes the pair from the buckets of tags the previous entry carried
but the new one does not. -/

/-- Counterexample to claim C4 as stated: after writing `("ns", "k")` with
tags `["A"]` and overwriting it with tags `["B"]`, the stored entry lists
only `"B"`, yet the pair still appears in the tag index under `"A"` — the
claimed "if and only if" fails in the only-if direction. -/
theorem C4_overwrite_counterexample :
    (mapGet (getCache
      (cmSet (cmSet (⟨[], [], 300000⟩ : CMState Nat) "ns" "k" 1
        ⟨some 1000, ["A"]⟩ 0) "ns" "k" 2 ⟨some 1000, ["B"]⟩ 5)
      "ns") "k").map CacheEntry.tags = some ["B"] ∧
    mapGet (cmSet (cmSet (⟨[], [], 300000⟩ : CMState Nat) "ns" "k" 1
        ⟨some 1000, ["A"]⟩ 0) "ns" "k" 2 ⟨some 1000, ["B"]⟩ 5).tagIndex
      "A" = some ["ns:k"] := by
  constructor <;> rfl

/-! ## Colon-free strings and the behaviour of `split(':', 2)` -/

/-- A string with no `':'` — the regime in which the composite
`` `${cacheName}:${key}` `` encoding is unambiguous. -/
def colonFree (x : String) : Prop := ':' ∉ x.data

instance (x : String) : Decidable (colonFree x) := by
  unfold colonFree; infer_instance

theorem splitCols_ne_nil (l : List Char) : splitCols l ≠ [] := by
  cases l with
  | nil => simp [splitCols]
  | cons c rest =>
      by_cases h : c = ':'
      · simp [splitCols, h]
      · simp only [splitCols, if_neg h]
        rcases hs : splitCols rest with _ | ⟨f, fs⟩ <;> simp

theorem splitCols_colonFree (l : List Char) (h : ':' ∉ l) :
    splitCols l = [l] := by
  induction l with
  | nil => rfl
  | cons c rest ih =>
      simp only [List.mem_cons] at h
      push_neg at h
      have hc : ¬c = ':' := fun he => h.1 he.symm
      simp [splitCols, hc, ih h.2]

theorem splitCols_append (l r : List Char) (h : ':' ∉ l) :
    splitCols (l ++ ':' :: r) = l :: splitCols r := by
  induction l with
  | nil => simp [splitCols]
  | cons c rest ih =>
      simp only [List.mem_cons] at h
      push_neg at h
      have hc : ¬c = ':' := fun he => h.1 he.symm
      simp only [List.cons_append, splitCols, if_neg hc]
      rw [show rest.append (':' :: r) = rest ++ ':' :: r from rfl, ih h.2]

theorem jsSplit2_jsCacheKey (ns k : String) (hns : colonFree ns)
    (hk : colonFree k) : jsSplit2 (jsCacheKey ns k) = (ns, k) := by
  have hdata : (jsCacheKey ns k).data = ns.data ++ ':' :: k.data := by
    simp [jsCacheKey, String.data_append]
  rw [jsSplit2, hdata, splitCols_append ns.data k.data hns,
    splitCols_colonFree k.data hk]
  simp [List.asString]

theorem jsCacheKey_inj (ns k ns' k' : String) (hns : colonFree ns)
    (hk : colonFree k) (hns' : colonFree ns') (hk' : colonFree k')
    (h : jsCacheKey ns k = jsCacheKey ns' k') : ns = ns' ∧ k = k' := by
  have h2 := congrArg jsSplit2 h
  rw [jsSplit2_jsCacheKey ns k hns hk,
    jsSplit2_jsCacheKey ns' k' hns' hk'] at h2
  exact ⟨congrArg Prod.fst h2, congrArg Prod.snd h2⟩

/-! ## Behaviour of `CacheManager.delete` on lookups -/

theorem cmDelete_fst {α : Type} (s : CMState α) (ns k : String) :
    (cmDelete s ns k).1 = (mapGet (getCache s ns) k).isSome := rfl

theorem cmDelete_lookup_self {α : Type} (s : CMState α) (ns k : String)
    (hnd : ((getCache s ns).map Prod.fst).Nodup) :
    mapGet (getCache (cmDelete s ns k).2 ns) k = none := by
  rw [getCache_cmDelete_self]
  exact mapGet_mapDel_self _ _ hnd

theorem cmDelete_lookup_other {α : Type} (s : CMState α)
    (ns k ns' k' : String) (h : ¬(ns = ns' ∧ k = k')) :
    mapGet (getCache (cmDelete s ns k).2 ns') k' =
      mapGet (getCache s ns') k' := by
  by_cases hns : ns = ns'
  · subst hns
    have hk : k ≠ k' := fun he => h ⟨rfl, he⟩
    rw [getCache_cmDelete_self]
    exact mapGet_mapDel_ne _ _ _ hk
  · show mapGet (getCache _ ns') k' = _
    unfold getCache cmDelete
    simp only
    rw [mapGet_mapSet_ne _ _ _ _ hns]

theorem mapDel_keys_sublist {β : Type} (m : List (κ × β)) (k : κ) :
    ((mapDel m k).map Prod.fst).Sublist (m.map Prod.fst) := by
  induction m with
  | nil => simp [mapDel]
  | cons hd tl ih =>
      obtain ⟨k0, v0⟩ := hd
      by_cases h0 : k0 = k
      · simp only [mapDel, if_pos h0, List.map_cons]
        exact (List.sublist_cons_self _ _)
      · simp only [mapDel, if_neg h0, List.map_cons]
        exact ih.cons₂ k0

theorem cmDelete_keys_nodup {α : Type} (s : CMState α) (ns k : String)
    (hkeys : ∀ n, ((getCache s n).map Prod.fst).Nodup) (n : String) :
    ((getCache (cmDelete s ns k).2 n).map Prod.fst).Nodup := by
  by_cases hn : ns = n
  · subst hn
    rw [getCache_cmDelete_self]
    exact (hkeys ns).sublist (mapDel_keys_sublist _ _)
  · have : getCache (cmDelete s ns k).2 n = getCache s n := by
      unfold getCache cmDelete
      simp only
      rw [mapGet_mapSet_ne _ _ _ _ hn]
    rw [this]; exact hkeys n

/-! ## Claim C3 amended: tag invalidation for colon-free pairs -/

theorem cmInvalidateByTag_eq_fold {α : Type} (s : CMState α) (tag : String)
    (bucket : List String) (hb : mapGet s.tagIndex tag = some bucket) :
    cmInvalidateByTag s tag = bucket.foldl invalidateStep (0, s) := by
  simp only [cmInvalidateByTag, hb]

theorem cmSet_lookup_other {α : Type} (s : CMState α) (ns k : String)
    (v : α) (o : CacheOptions) (now : Nat) (ns' : String) (h : ns ≠ ns') :
    getCache (cmSet s ns k v o now) ns' = getCache s ns' := by
  unfold getCache cmSet
  simp only
  rw [mapGet_mapSet_ne _ _ _ _ h]

theorem cmSet_keys_nodup {α : Type} (s : CMState α) (ns k : String)
    (v : α) (o : CacheOptions) (now : Nat)
    (hkeys : ∀ n, ((getCache s n).map Prod.fst).Nodup) (n : String) :
    ((getCache (cmSet s ns k v o now) n).map Prod.fst).Nodup := by
  by_cases hn : ns = n
  · subst hn
    rw [getCache_cmSet_self]
    exact mapSet_keys_nodup _ _ _ (hkeys ns)
  · rw [cmSet_lookup_other s ns k v o now n hn]
    exact hkeys n

theorem emptyState_keys_nodup {α : Type} (d : Nat) (n : String) :
    ((getCache (⟨[], [], d⟩ : CMState α) n).map Prod.fst).Nodup := by
  simp [getCache, mapGet]

theorem invalidate_fold_spec {α : Type} :
    ∀ (bucket : List String) (s : CMState α) (acc : Nat),
    bucket.Nodup →
    (∀ n, ((getCache s n).map Prod.fst).Nodup) →
    (∀ ck ∈ bucket, ∃ ns key, ck = jsCacheKey ns key ∧ colonFree ns ∧
      colonFree key ∧ (mapGet (getCache s ns) key).isSome) →
    (bucket.foldl invalidateStep (acc, s)).1 = acc + bucket.length ∧
    (∀ ns key, colonFree ns → colonFree key → jsCacheKey ns key ∈ bucket →
      mapGet (getCache (bucket.foldl invalidateStep (acc, s)).2 ns) key =
        none) ∧
    (∀ ns key, jsCacheKey ns key ∉ bucket →
      mapGet (getCache (bucket.foldl invalidateStep (acc, s)).2 ns) key =
        mapGet (getCache s ns) key) := by
  intro bucket
  induction bucket with
  | nil => intro s acc _ _ _; simp
  | cons ck rest ih =>
      intro s acc hnd hkeys hwf
      obtain ⟨ns0, key0, hck, hns0, hkey0, hsome⟩ := hwf ck (by simp)
      have hsplit : jsSplit2 ck = (ns0, key0) := by
        rw [hck]; exact jsSplit2_jsCacheKey ns0 key0 hns0 hkey0
      have hstep : invalidateStep (acc, s) ck =
          (acc + 1, (cmDelete s ns0 key0).2) := by
        simp [invalidateStep, hsplit, cmDelete_fst, hsome]
      have hnd' : rest.Nodup := (List.nodup_cons.1 hnd).2
      have hck_notin : ck ∉ rest := (List.nodup_cons.1 hnd).1
      set s1 := (cmDelete s ns0 key0).2 with hs1
      have hkeys1 : ∀ n, ((getCache s1 n).map Prod.fst).Nodup :=
        cmDelete_keys_nodup s ns0 key0 hkeys
      have hwf1 : ∀ ck' ∈ rest, ∃ ns key, ck' = jsCacheKey ns key ∧
          colonFree ns ∧ colonFree key ∧
          (mapGet (getCache s1 ns) key).isSome := by
        intro ck' hmem
        obtain ⟨ns', key', hck', hns', hkey', hsome'⟩ :=
          hwf ck' (by simp [hmem])
        refine ⟨ns', key', hck', hns', hkey', ?_⟩
        have hpairs : ¬(ns0 = ns' ∧ key0 = key') := by
          rintro ⟨rfl, rfl⟩
          exact hck_notin (by rw [hck, ← hck']; exact hmem)
        rw [cmDelete_lookup_other s ns0 key0 ns' key' hpairs]
        exact hsome'
      obtain ⟨ih1, ih2, ih3⟩ := ih s1 (acc + 1) hnd' hkeys1 hwf1
      have hfold : (ck :: rest).foldl invalidateStep (acc, s) =
          rest.foldl invalidateStep (acc + 1, s1) := by
        simp [List.foldl_cons, hstep]
      refine ⟨?_, ?_, ?_⟩
      · rw [hfold, ih1]; simp; omega
      · intro ns key hnsf hkf hmem
        rw [hfold]
        rcases List.mem_cons.1 hmem with heq | hmem'
        · -- the head entry: removed by the first delete and never restored
          have hpair : ns = ns0 ∧ key = key0 := by
            apply jsCacheKey_inj ns key ns0 key0 hnsf hkf hns0 hkey0
            exact heq.trans hck
          obtain ⟨rfl, rfl⟩ := hpair
          have hnotin : jsCacheKey ns key ∉ rest := by
            rw [← hck]; exact hck_notin
          rw [ih3 ns key hnotin]
          exact cmDelete_lookup_self s ns key (hkeys ns)
        · exact ih2 ns key hnsf hkf hmem'
      · intro ns key hnotin
        rw [hfold]
        have hnotin' : jsCacheKey ns key ∉ rest :=
          fun h => hnotin (by simp [h])
        rw [ih3 ns key hnotin']
        apply cmDelete_lookup_other
        rintro ⟨rfl, rfl⟩
        exact hnotin (by simp [hck])

/-- Claim C3, amended: `invalidateByTag tag` deletes every
`(namespace, key)` pair registered under the tag and returns their number,
and entries not registered under the tag keep their cached value —
provided every registered cache key decomposes into a namespace and key
that are both free of `':'`.  (As `C3_colon_key_counterexample` shows, the
`split(':', 2)` recovery silently misses pairs whose key contains `':'`,
so the claim is false without that restriction.) -/
theorem C3_invalidateByTag_amended {α : Type} (s : CMState α)
    (tag : String) (bucket : List String)
    (hb : mapGet s.tagIndex tag = some bucket) (hnd : bucket.Nodup)
    (hkeys : ∀ n, ((getCache s n).map Prod.fst).Nodup)
    (hwf : ∀ ck ∈ bucket, ∃ ns key, ck = jsCacheKey ns key ∧
      colonFree ns ∧ colonFree key ∧
      (mapGet (getCache s ns) key).isSome) :
    (cmInvalidateByTag s tag).1 = bucket.length ∧
    (∀ ns key, colonFree ns → colonFree key →
      jsCacheKey ns key ∈ bucket →
      mapGet (getCache (cmInvalidateByTag s tag).2 ns) key = none) ∧
    (∀ ns key, jsCacheKey ns key ∉ bucket →
      mapGet (getCache (cmInvalidateByTag s tag).2 ns) key =
        mapGet (getCache s ns) key) := by
  rw [cmInvalidateByTag_eq_fold s tag bucket hb]
  simpa using invalidate_fold_spec bucket s 0 hnd hkeys hwf

/-- Concrete instantiation of `C3_invalidateByTag_amended`: entries
`("t", "a")` tagged `A`, `("t", "b")` tagged `B` and `("t", "c")` tagged
`A` and `B`; invalidating `"A"` removes exactly `a` and `c` (count `2`)
and leaves `b` cached. -/
theorem C3_invalidateByTag_amended_witness :
    (cmInvalidateByTag
      (cmSet (cmSet (cmSet (⟨[], [], 300000⟩ : CMState Nat)
        "t" "a" 1 ⟨some 1000, ["A"]⟩ 0)
        "t" "b" 2 ⟨some 1000, ["B"]⟩ 0)
        "t" "c" 3 ⟨some 1000, ["A", "B"]⟩ 0) "A").1 = 2 ∧
    mapGet (getCache (cmInvalidateByTag
      (cmSet (cmSet (cmSet (⟨[], [], 300000⟩ : CMState Nat)
        "t" "a" 1 ⟨some 1000, ["A"]⟩ 0)
        "t" "b" 2 ⟨some 1000, ["B"]⟩ 0)
        "t" "c" 3 ⟨some 1000, ["A", "B"]⟩ 0) "A").2 "t") "a" = none ∧
    mapGet (getCache (cmInvalidateByTag
      (cmSet (cmSet (cmSet (⟨[], [], 300000⟩ : CMState Nat)
        "t" "a" 1 ⟨some 1000, ["A"]⟩ 0)
        "t" "b" 2 ⟨some 1000, ["B"]⟩ 0)
        "t" "c" 3 ⟨some 1000, ["A", "B"]⟩ 0) "A").2 "t") "c" = none ∧
    (mapGet (getCache (cmInvalidateByTag
      (cmSet (cmSet (cmSet (⟨[], [], 300000⟩ : CMState Nat)
        "t" "a" 1 ⟨some 1000, ["A"]⟩ 0)
        "t" "b" 2 ⟨some 1000, ["B"]⟩ 0)
        "t" "c" 3 ⟨some 1000, ["A", "B"]⟩ 0) "A").2 "t") "b").map
      CacheEntry.data = some 2 := by
  have h := C3_invalidateByTag_amended
    (cmSet (cmSet (cmSet (⟨[], [], 300000⟩ : CMState Nat)
      "t" "a" 1 ⟨some 1000, ["A"]⟩ 0)
      "t" "b" 2 ⟨some 1000, ["B"]⟩ 0)
      "t" "c" 3 ⟨some 1000, ["A", "B"]⟩ 0) "A" ["t:a", "t:c"]
    (by rfl) (by decide)
    (cmSet_keys_nodup _ _ _ _ _ _
      (cmSet_keys_nodup _ _ _ _ _ _
        (cmSet_keys_nodup _ _ _ _ _ _ (emptyState_keys_nodup 300000))))
    (by
      intro ck hck
      rcases List.mem_pair.1 hck with rfl | rfl
      · exact ⟨"t", "a", rfl, by decide, by decide, by decide⟩
      · exact ⟨"t", "c", rfl, by decide, by decide, by decide⟩)
  refine ⟨h.1, ?_, ?_, ?_⟩
  · exact h.2.1 "t" "a" (by decide) (by decide) (by decide)
  · exact h.2.1 "t" "c" (by decide) (by decide) (by decide)
  · rw [h.2.2 "t" "b" (by decide)]; rfl

/-! ## Claim C4 amended: one-directional tag-index consistency -/

/-- Membership of a cache key in a tag's bucket (an absent tag has an
empty bucket). -/
def inBucket (ti : List (String × List String)) (tag ck : String) : Prop :=
  ck ∈ (mapGet ti tag).getD []

instance (ti : List (String × List String)) (tag ck : String) :
    Decidable (inBucket ti tag ck) := by
  unfold inBucket; infer_instance

/-- The amended tag-index invariant: every tag listed by a currently
stored entry indexes that entry's composite cache key.  (The converse —
the direction `C4_overwrite_counterexample` refutes — is not required.) -/
def TagInvariant {α : Type} (s : CMState α) : Prop :=
  ∀ ns key e, mapGet (getCache s ns) key = some e →
    ∀ t ∈ e.tags, inBucket s.tagIndex t (jsCacheKey ns key)

/-- All stored pairs use `':'`-free namespaces and keys (the regime in
which the composite-key encoding is unambiguous). -/
def EntriesColonFree {α : Type} (s : CMState α) : Prop :=
  ∀ ns key e, mapGet (getCache s ns) key = some e →
    colonFree ns ∧ colonFree key

theorem mem_setAdd_self (s : List String) (x : String) : x ∈ setAdd s x := by
  unfold setAdd
  by_cases h : x ∈ s <;> simp [h]

theorem mem_setAdd_of_mem (s : List String) (x y : String) (h : y ∈ s) :
    y ∈ setAdd s x := by
  unfold setAdd
  by_cases hx : x ∈ s <;> simp [hx, h]

theorem mem_setDel (s : List String) (x y : String) (hne : y ≠ x)
    (h : y ∈ s) : y ∈ setDel s x := by
  unfold setDel
  simp only [List.mem_filter, decide_eq_true_eq]
  exact ⟨h, hne⟩

theorem inBucket_addTagStep {ti : List (String × List String)}
    {t x : String} (ck tag : String) (h : inBucket ti t x) :
    inBucket (addTagStep ck ti tag) t x := by
  unfold inBucket at h ⊢
  unfold addTagStep
  by_cases ht : tag = t
  · subst ht
    rw [mapGet_mapSet_self]
    exact mem_setAdd_of_mem _ _ _ h
  · rw [mapGet_mapSet_ne _ _ _ _ ht]
    exact h

theorem inBucket_addTag_fold {x : String} (ck : String) :
    ∀ (tags : List String) (ti : List (String × List String)) (t : String),
    inBucket ti t x → inBucket (tags.foldl (addTagStep ck) ti) t x := by
  intro tags
  induction tags with
  | nil => intro ti t h; exact h
  | cons tag rest ih =>
      intro ti t h
      exact ih (addTagStep ck ti tag) t (inBucket_addTagStep ck tag h)

theorem inBucket_addTag_fold_self (ck : String) :
    ∀ (tags : List String) (ti : List (String × List String)) (t : String),
    t ∈ tags → inBucket (tags.foldl (addTagStep ck) ti) t ck := by
  intro tags
  induction tags with
  | nil => intro ti t h; exact absurd h (List.not_mem_nil t)
  | cons tag rest ih =>
      intro ti t h
      rcases List.mem_cons.1 h with rfl | hmem
      · rw [List.foldl_cons]
        apply inBucket_addTag_fold
        unfold inBucket
        unfold addTagStep
        rw [mapGet_mapSet_self]
        exact mem_setAdd_self _ _
      · exact ih _ t hmem

theorem inBucket_removeTagStep {ti : List (String × List String)}
    {t x : String} (ck tag : String) (hne : x ≠ ck)
    (h : inBucket ti t x) : inBucket (removeTagStep ck ti tag) t x := by
  unfold inBucket at h ⊢
  unfold removeTagStep
  rcases hb : mapGet ti tag with _ | bucket
  · exact h
  · simp only
    by_cases ht : tag = t
    · subst ht
      rw [hb] at h
      have hmem : x ∈ setDel bucket ck := mem_setDel _ _ _ hne h
      have hne' : ¬setDel bucket ck = [] := by
        intro he; rw [he] at hmem; exact absurd hmem (List.not_mem_nil x)
      rw [if_neg hne', mapGet_mapSet_self]
      exact hmem
    · by_cases hempty : setDel bucket ck = []
      · rw [if_pos hempty, mapGet_mapDel_ne _ _ _ ht]
        exact h
      · rw [if_neg hempty, mapGet_mapSet_ne _ _ _ _ ht]
        exact h

theorem inBucket_removeTag_fold {x : String} (ck : String) (hne : x ≠ ck) :
    ∀ (tags : List String) (ti : List (String × List String)) (t : String),
    inBucket ti t x → inBucket (tags.foldl (removeTagStep ck) ti) t x := by
  intro tags
  induction tags with
  | nil => intro ti t h; exact h
  | cons tag rest ih =>
      intro ti t h
      exact ih _ t (inBucket_removeTagStep ck tag hne h)

/-- Lookup in a namespace after `cmSet`: the written key holds the new
entry, any other key is unchanged. -/
theorem cmSet_lookup {α : Type} (s : CMState α) (ns k : String) (v : α)
    (o : CacheOptions) (now : Nat) (n key : String) :
    mapGet (getCache (cmSet s ns k v o now) n) key =
      if ns = n ∧ k = key then
        some ⟨v, now, o.ttl.getD s.defaultTtl, o.tags⟩
      else mapGet (getCache s n) key := by
  by_cases hn : ns = n
  · subst hn
    rw [getCache_cmSet_self]
    by_cases hk : k = key
    · subst hk
      simp [mapGet_mapSet_self]
    · rw [mapGet_mapSet_ne _ _ _ _ hk]
      simp [hk]
  · rw [cmSet_lookup_other s ns k v o now n hn]
    simp [hn]

theorem cmSet_tagIndex {α : Type} (s : CMState α) (ns k : String) (v : α)
    (o : CacheOptions) (now : Nat) :
    (cmSet s ns k v o now).tagIndex =
      o.tags.foldl (addTagStep (jsCacheKey ns k)) s.tagIndex := rfl

/-- `set` preserves the (one-directional) tag-index invariant. -/
theorem TagInvariant_cmSet {α : Type} (s : CMState α) (ns k : String)
    (v : α) (o : CacheOptions) (now : Nat) (hinv : TagInvariant s) :
    TagInvariant (cmSet s ns k v o now) := by
  intro n key e hlook t ht
  rw [cmSet_lookup] at hlook
  rw [cmSet_tagIndex]
  by_cases hpair : ns = n ∧ k = key
  · obtain ⟨rfl, rfl⟩ := hpair
    rw [if_pos ⟨rfl, rfl⟩] at hlook
    cases Option.some.inj hlook
    exact inBucket_addTag_fold_self _ _ _ _ ht
  · rw [if_neg hpair] at hlook
    exact inBucket_addTag_fold _ _ _ _ (hinv n key e hlook t ht)

theorem cmDelete_tagIndex {α : Type} (s : CMState α) (ns k : String) :
    (cmDelete s ns k).2.tagIndex =
      match mapGet (getCache s ns) k with
      | none => s.tagIndex
      | some entry =>
          entry.tags.foldl (removeTagStep (jsCacheKey ns k)) s.tagIndex :=
  rfl

/-- `delete` with a `':'`-free pair preserves the invariant, provided all
stored pairs are `':'`-free (so distinct pairs have distinct composite
keys). -/
theorem TagInvariant_cmDelete {α : Type} (s : CMState α) (ns k : String)
    (hns : colonFree ns) (hk : colonFree k) (hinv : TagInvariant s)
    (hcf : EntriesColonFree s)
    (hkeys : ∀ n, ((getCache s n).map Prod.fst).Nodup) :
    TagInvariant (cmDelete s ns k).2 := by
  intro n key e hlook t ht
  by_cases hpair : ns = n ∧ k = key
  · obtain ⟨rfl, rfl⟩ := hpair
    rw [cmDelete_lookup_self s ns k (hkeys ns)] at hlook
    exact Option.noConfusion hlook
  · rw [cmDelete_lookup_other s ns k n key hpair] at hlook
    obtain ⟨hnf, hkf⟩ := hcf n key e hlook
    have hib := hinv n key e hlook t ht
    have hckne : jsCacheKey n key ≠ jsCacheKey ns k := by
      intro he
      exact hpair ⟨((jsCacheKey_inj n key ns k hnf hkf hns hk he).1).symm,
        ((jsCacheKey_inj n key ns k hnf hkf hns hk he).2).symm⟩
    rw [cmDelete_tagIndex]
    rcases hdel : mapGet (getCache s ns) k with _ | entry
    · exact hib
    · exact inBucket_removeTag_fold _ hckne _ _ _ hib

theorem EntriesColonFree_cmDelete {α : Type} (s : CMState α)
    (ns k : String) (hcf : EntriesColonFree s)
    (hkeys : ∀ n, ((getCache s n).map Prod.fst).Nodup) :
    EntriesColonFree (cmDelete s ns k).2 := by
  intro n key e hlook
  by_cases hpair : ns = n ∧ k = key
  · obtain ⟨rfl, rfl⟩ := hpair
    rw [cmDelete_lookup_self s ns k (hkeys ns)] at hlook
    exact Option.noConfusion hlook
  · rw [cmDelete_lookup_other s ns k n key hpair] at hlook
    exact hcf n key e hlook

theorem EntriesColonFree_cmSet {α : Type} (s : CMState α) (ns k : String)
    (v : α) (o : CacheOptions) (now : Nat) (hns : colonFree ns)
    (hk : colonFree k) (hcf : EntriesColonFree s) :
    EntriesColonFree (cmSet s ns k v o now) := by
  intro n key e hlook
  rw [cmSet_lookup] at hlook
  by_cases hpair : ns = n ∧ k = key
  · obtain ⟨rfl, rfl⟩ := hpair
    exact ⟨hns, hk⟩
  · rw [if_neg hpair] at hlook
    exact hcf n key e hlook

theorem mapGet_of_mem_nodup {β : Type} (m : List (κ × β)) (k : κ) (v : β)
    (hnd : (m.map Prod.fst).Nodup) (h : (k, v) ∈ m) :
    mapGet m k = some v := by
  induction m with
  | nil => exact absurd h (List.not_mem_nil _)
  | cons hd tl ih =>
      obtain ⟨k0, v0⟩ := hd
      simp only [List.map_cons, List.nodup_cons] at hnd
      rcases List.mem_cons.1 h with heq | hmem
      · cases heq
        simp [mapGet]
      · have hk : k0 ≠ k := by
          intro he
          subst he
          exact hnd.1 (List.mem_map.2 ⟨(k0, v), hmem, rfl⟩)
        simp only [mapGet, if_neg hk]
        exact ih hnd.2 hmem

theorem cmClear_lookup {α : Type} (s : CMState α) (ns n key : String) :
    mapGet (getCache (cmClear s ns) n) key =
      if ns = n then none else mapGet (getCache s n) key := by
  by_cases hn : ns = n
  · subst hn
    show mapGet ((mapGet (mapSet s.caches ns []) ns).getD []) key = _
    rw [mapGet_mapSet_self]
    simp
  · show mapGet ((mapGet (mapSet s.caches ns []) n).getD []) key = _
    rw [mapGet_mapSet_ne _ _ _ _ hn]
    simp [hn, getCache]

theorem inBucket_clear_fold {α : Type} {x : String} (ns : String) :
    ∀ (entries : List (String × CacheEntry α))
      (ti : List (String × List String)) (t : String),
    (∀ kv ∈ entries, jsCacheKey ns kv.1 ≠ x) → inBucket ti t x →
    inBucket (entries.foldl
      (fun ti kv => kv.2.tags.foldl (removeTagStep (jsCacheKey ns kv.1)) ti)
      ti) t x := by
  intro entries
  induction entries with
  | nil => intro ti t _ h; exact h
  | cons kv rest ih =>
      intro ti t hne h
      rw [List.foldl_cons]
      refine ih _ t (fun kv' hkv' => hne kv' (by simp [hkv'])) ?_
      have hx : x ≠ jsCacheKey ns kv.1 :=
        fun he => hne kv (by simp) he.symm
      exact inBucket_removeTag_fold _ hx _ _ _ h

theorem cmClear_tagIndex {α : Type} (s : CMState α) (ns : String) :
    (cmClear s ns).tagIndex =
      (getCache s ns).foldl
        (fun ti kv =>
          kv.2.tags.foldl (removeTagStep (jsCacheKey ns kv.1)) ti)
        s.tagIndex := rfl

/-- `clear` preserves the invariant (all stored pairs `':'`-free). -/
theorem TagInvariant_cmClear {α : Type} (s : CMState α) (ns : String)
    (hinv : TagInvariant s) (hcf : EntriesColonFree s)
    (hkeys : ∀ n, ((getCache s n).map Prod.fst).Nodup) :
    TagInvariant (cmClear s ns) := by
  intro n key e hlook t ht
  rw [cmClear_lookup] at hlook
  by_cases hn : ns = n
  · rw [if_pos hn] at hlook
    exact Option.noConfusion hlook
  · rw [if_neg hn] at hlook
    obtain ⟨hnf, hkf⟩ := hcf n key e hlook
    rw [cmClear_tagIndex]
    refine inBucket_clear_fold ns _ _ _ ?_ (hinv n key e hlook t ht)
    intro kv hkv he
    have hkv' : mapGet (getCache s ns) kv.1 = some kv.2 :=
      mapGet_of_mem_nodup _ _ _ (hkeys ns) (by cases kv; exact hkv)
    obtain ⟨hnsf, hk1f⟩ := hcf ns kv.1 kv.2 hkv'
    exact hn (jsCacheKey_inj ns kv.1 n key hnsf hk1f hnf hkf he).1

theorem EntriesColonFree_cmClear {α : Type} (s : CMState α) (ns : String)
    (hcf : EntriesColonFree s) : EntriesColonFree (cmClear s ns) := by
  intro n key e hlook
  rw [cmClear_lookup] at hlook
  by_cases hn : ns = n
  · rw [if_pos hn] at hlook; exact Option.noConfusion hlook
  · rw [if_neg hn] at hlook; exact hcf n key e hlook

theorem splitCols_fields_colonFree (l : List Char) :
    ∀ f ∈ splitCols l, ':' ∉ f := by
  induction l with
  | nil =>
      intro f hf
      simp only [splitCols, List.mem_singleton] at hf
      subst hf; simp
  | cons c rest ih =>
      intro f hf
      by_cases hc : c = ':'
      · simp only [splitCols, if_pos hc, List.mem_cons] at hf
        rcases hf with rfl | hf
        · simp
        · exact ih f hf
      · simp only [splitCols, if_neg hc] at hf
        rcases hs : splitCols rest with _ | ⟨f0, fs⟩
        · exact absurd hs (splitCols_ne_nil rest)
        · rw [hs] at hf
          rcases List.mem_cons.1 hf with rfl | hf2
          · have hf0 : ':' ∉ f0 := ih f0 (by rw [hs]; simp)
            simp only [List.mem_cons]
            push_neg
            exact ⟨fun he => hc he.symm, hf0⟩
          · exact ih f (by rw [hs]; simp [hf2])

theorem jsSplit2_colonFree (s : String) :
    colonFree (jsSplit2 s).1 ∧ colonFree (jsSplit2 s).2 := by
  unfold jsSplit2 colonFree
  constructor
  · rcases hs : splitCols s.data with _ | ⟨f, fs⟩
    · exact absurd hs (splitCols_ne_nil s.data)
    · simp only [List.headD_cons]
      rw [show (List.asString f).data = f from rfl]
      exact splitCols_fields_colonFree s.data f (by rw [hs]; simp)
  · rcases hs : splitCols s.data with _ | ⟨f, fs⟩
    · exact absurd hs (splitCols_ne_nil s.data)
    · simp only [List.drop_one, List.tail_cons]
      rcases fs with _ | ⟨f1, fs'⟩
      · simp [List.asString]
      · simp only [List.headD_cons]
        rw [show (List.asString f1).data = f1 from rfl]
        exact splitCols_fields_colonFree s.data f1 (by rw [hs]; simp)

theorem invalidateStep_snd {α : Type} (acc : Nat × CMState α)
    (ck : String) :
    (invalidateStep acc ck).2 =
      (cmDelete acc.2 (jsSplit2 ck).1 (jsSplit2 ck).2).2 := rfl

theorem invalidate_fold_invariant {α : Type} :
    ∀ (bucket : List String) (s : CMState α) (acc : Nat),
    TagInvariant s → EntriesColonFree s →
    (∀ n, ((getCache s n).map Prod.fst).Nodup) →
    TagInvariant (bucket.foldl invalidateStep (acc, s)).2 := by
  intro bucket
  induction bucket with
  | nil => intro s acc hinv _ _; exact hinv
  | cons ck rest ih =>
      intro s acc hinv hcf hkeys
      obtain ⟨h1, h2⟩ := jsSplit2_colonFree ck
      rcases hres : invalidateStep (acc, s) ck with ⟨acc1, s1⟩
      have hs1 : s1 = (cmDelete s (jsSplit2 ck).1 (jsSplit2 ck).2).2 :=
        (congrArg Prod.snd hres).symm.trans (invalidateStep_snd (acc, s) ck)
      rw [List.foldl_cons, hres]
      subst hs1
      exact ih _ acc1 (TagInvariant_cmDelete s _ _ h1 h2 hinv hcf hkeys)
        (EntriesColonFree_cmDelete s _ _ hcf hkeys)
        (cmDelete_keys_nodup s _ _ hkeys)

/-- `invalidateByTag` preserves the invariant. -/
theorem TagInvariant_cmInvalidateByTag {α : Type} (s : CMState α)
    (tag : String) (hinv : TagInvariant s) (hcf : EntriesColonFree s)
    (hkeys : ∀ n, ((getCache s n).map Prod.fst).Nodup) :
    TagInvariant (cmInvalidateByTag s tag).2 := by
  unfold cmInvalidateByTag
  rcases mapGet s.tagIndex tag with _ | bucket
  · exact hinv
  · exact invalidate_fold_invariant bucket s 0 hinv hcf hkeys

theorem TagInvariant_empty {α : Type} (d : Nat) :
    TagInvariant (⟨[], [], d⟩ : CMState α) := by
  intro ns key e hlook
  simp [getCache, mapGet] at hlook

theorem EntriesColonFree_empty {α : Type} (d : Nat) :
    EntriesColonFree (⟨[], [], d⟩ : CMState α) := by
  intro ns key e hlook
  simp [getCache, mapGet] at hlook

/-- Claim C4, amended: the tag-index consistency fails as an "if and only
if" — `C4_overwrite_counterexample` exhibits an overwrite after which the
index still lists the pair under a tag the stored entry no longer carries,
because `set` only adds index memberships and never removes stale ones.
What the code does maintain is the forward direction: in any state
satisfying it (with `':'`-free stored pairs and duplicate-free key lists),
every tag listed by a stored entry indexes that entry's pair, and this
invariant is preserved by write/overwrite, by delete (for `':'`-free
arguments), by namespace clear, and by tag invalidation. -/
theorem C4_tagIndex_forward_invariant {α : Type} (s : CMState α)
    (hinv : TagInvariant s) (hcf : EntriesColonFree s)
    (hkeys : ∀ n, ((getCache s n).map Prod.fst).Nodup) :
    (∀ (ns k : String) (v : α) (o : CacheOptions) (now : Nat),
      TagInvariant (cmSet s ns k v o now)) ∧
    (∀ ns k, colonFree ns → colonFree k →
      TagInvariant (cmDelete s ns k).2) ∧
    (∀ ns, TagInvariant (cmClear s ns)) ∧
    (∀ tag, TagInvariant (cmInvalidateByTag s tag).2) :=
  ⟨fun ns k v o now => TagInvariant_cmSet s ns k v o now hinv,
   fun ns k hns hk => TagInvariant_cmDelete s ns k hns hk hinv hcf hkeys,
   fun ns => TagInvariant_cmClear s ns hinv hcf hkeys,
   fun tag => TagInvariant_cmInvalidateByTag s tag hinv hcf hkeys⟩

/-- Concrete instantiation of `C4_tagIndex_forward_invariant`: after the
overwrite scenario of the counterexample, the new tag `"B"` of the stored
entry does index the pair `"ns:k"`. -/
theorem C4_tagIndex_forward_invariant_witness :
    inBucket (cmSet (cmSet (⟨[], [], 300000⟩ : CMState Nat) "ns" "k" 1
      ⟨some 100, ["A"]⟩ 0) "ns" "k" 2 ⟨some 100, ["B"]⟩ 5).tagIndex
      "B" (jsCacheKey "ns" "k") := by
  have h := C4_tagIndex_forward_invariant
    (cmSet (⟨[], [], 300000⟩ : CMState Nat) "ns" "k" 1 ⟨some 100, ["A"]⟩ 0)
    (TagInvariant_cmSet _ "ns" "k" 1 ⟨some 100, ["A"]⟩ 0
      (TagInvariant_empty 300000))
    (EntriesColonFree_cmSet _ "ns" "k" 1 ⟨some 100, ["A"]⟩ 0
      (by decide) (by decide) (EntriesColonFree_empty 300000))
    (cmSet_keys_nodup _ "ns" "k" 1 ⟨some 100, ["A"]⟩ 0
      (emptyState_keys_nodup 300000))
  exact h.1 "ns" "k" 2 ⟨some 100, ["B"]⟩ 5 "ns" "k"
    ⟨2, 5, 100, ["B"]⟩ (by rfl) "B" (by decide)

/-! ## Claims C6 and C7: batch flush settlement -/

theorem mapGet_mem {β : Type} (m : List (κ × β)) (k : κ) (v : β)
    (h : mapGet m k = some v) : (k, v) ∈ m := by
  induction m with
  | nil => exact Option.noConfusion h
  | cons hd tl ih =>
      obtain ⟨k0, v0⟩ := hd
      by_cases h0 : k0 = k
      · subst h0
        have hv : v0 = v := by simpa [mapGet] using h
        subst hv
        exact List.mem_cons_self _ _
      · simp only [mapGet, if_neg h0] at h
        exact List.mem_cons_of_mem _ (ih h)

theorem foldOk_preserves {α : Type} (resolvers : List (String × Nat))
    (data : List (String × α)) (pid : Nat) (o : Option (Outcome α)) :
    ∀ (keys : List String) (acc : BatchSys α),
    (∀ k' ∈ keys, ∀ p', mapGet resolvers k' = some p' → p' ≠ pid) →
    mapGet acc.settled pid = o →
    mapGet ((keys.foldl (flushOkStep resolvers data) acc).settled) pid =
      o := by
  intro keys
  induction keys with
  | nil => intro acc _ h; exact h
  | cons k0 rest ih =>
      intro acc hne h
      rw [List.foldl_cons]
      refine ih _ (fun k' hk' => hne k' (by simp [hk'])) ?_
      unfold flushOkStep
      rcases hr : mapGet resolvers k0 with _ | p0
      · exact h
      · have hp0 : p0 ≠ pid := hne k0 (by simp) p0 hr
        rcases hd : mapGet data k0 with _ | v <;>
          simpa [mapGet_mapSet_ne _ p0 pid _ hp0] using h

theorem foldOk_lookup {α : Type} (resolvers : List (String × Nat))
    (data : List (String × α)) (k : String) (pid : Nat) :
    ∀ (keys : List String) (acc : BatchSys α),
    keys.Nodup → k ∈ keys → mapGet resolvers k = some pid →
    (∀ k' p', k' ≠ k → mapGet resolvers k' = some p' → p' ≠ pid) →
    mapGet ((keys.foldl (flushOkStep resolvers data) acc).settled) pid =
      some (match mapGet data k with
        | some v => Outcome.ok v
        | none =>
            Outcome.err ("Missing batched result for key: " ++ k)) := by
  intro keys
  induction keys with
  | nil => intro acc _ hmem; exact absurd hmem (List.not_mem_nil k)
  | cons k0 rest ih =>
      intro acc hnd hmem hres hne
      obtain ⟨hk0, hnd'⟩ := List.nodup_cons.1 hnd
      rw [List.foldl_cons]
      by_cases heq : k0 = k
      · subst heq
        refine foldOk_preserves resolvers data pid _ rest _
          (fun k' hk' p' hr => hne k' p' (fun he => hk0 (he ▸ hk')) hr) ?_
        unfold flushOkStep
        rw [hres]
        rcases hd : mapGet data k0 with _ | v <;>
          simp [mapGet_mapSet_self]
      · have hmem' : k ∈ rest := by
          rcases List.mem_cons.1 hmem with h | h
          · exact absurd h.symm heq
          · exact h
        refine ih _ hnd' hmem' hres hne

theorem foldErr_preserves {α : Type} (e : String) (pid : Nat)
    (o : Option (Outcome α)) :
    ∀ (pairs : List (String × Nat)) (acc : BatchSys α),
    (∀ kv ∈ pairs, kv.2 ≠ pid) → mapGet acc.settled pid = o →
    mapGet ((pairs.foldl (flushErrStep e) acc).settled) pid = o := by
  intro pairs
  induction pairs with
  | nil => intro acc _ h; exact h
  | cons kv rest ih =>
      intro acc hne h
      rw [List.foldl_cons]
      refine ih _ (fun kv' hkv' => hne kv' (by simp [hkv'])) ?_
      unfold flushErrStep
      simpa [mapGet_mapSet_ne _ kv.2 pid _ (hne kv (by simp))] using h

theorem foldErr_lookup {α : Type} (e : String) (k : String) (pid : Nat) :
    ∀ (pairs : List (String × Nat)) (acc : BatchSys α),
    (pairs.map Prod.snd).Nodup → (k, pid) ∈ pairs →
    mapGet ((pairs.foldl (flushErrStep e) acc).settled) pid =
      some (.err e) := by
  intro pairs
  induction pairs with
  | nil => intro acc _ hmem; exact absurd hmem (List.not_mem_nil _)
  | cons kv rest ih =>
      intro acc hnd hmem
      simp only [List.map_cons, List.nodup_cons] at hnd
      rw [List.foldl_cons]
      rcases List.mem_cons.1 hmem with heq | hmem'
      · subst heq
        refine foldErr_preserves e pid _ rest _ ?_ ?_
        · intro kv' hkv' he
          exact hnd.1 (he ▸ List.mem_map.2 ⟨kv', hkv', rfl⟩)
        · unfold flushErrStep
          simp [mapGet_mapSet_self]
      · exact ih _ hnd.2 hmem'

/-- Claim C6: when a batch flush fires (with duplicate-free snapshotted
keys, resolver keys in the key set, and pairwise-distinct promises),
every entry of the flushed batch settles: a key the handler's returned
record contains resolves to its value; a key the record omits is rejected
with the explicit `"Missing batched result for key: <k>"` error instead of
staying pending; and if the handler itself threw, every entry of the
flushed batch is rejected with the thrown error. -/
theorem C6_batch_flush_settles {α : Type} (s : BatchSys α)
    (bname : String) (q : BQueue) (data : List (String × α)) (e : String)
    (hq : mapGet s.queues bname = some q)
    (hknd : q.keys.Nodup)
    (hrk : (q.resolvers.map Prod.fst).Nodup)
    (hrp : (q.resolvers.map Prod.snd).Nodup)
    (hsync : ∀ kv ∈ q.resolvers, kv.1 ∈ q.keys) :
    (∀ k pid, (k, pid) ∈ q.resolvers →
      mapGet (batchFlush s bname (.ok data)).settled pid =
        some (match mapGet data k with
          | some v => Outcome.ok v
          | none =>
              Outcome.err ("Missing batched result for key: " ++ k))) ∧
    (∀ k pid, (k, pid) ∈ q.resolvers →
      mapGet (batchFlush s bname (.thrown e)).settled pid =
        some (.err e)) := by
  constructor
  · intro k pid hmem
    have hflush : batchFlush s bname (.ok data) =
        q.keys.foldl (flushOkStep q.resolvers data)
          { s with queues := mapSet s.queues bname ⟨[], [], false⟩ } := by
      unfold batchFlush
      rw [hq]
    rw [hflush]
    refine foldOk_lookup q.resolvers data k pid q.keys _ hknd
      (hsync (k, pid) hmem) (mapGet_of_mem_nodup _ _ _ hrk hmem) ?_
    intro k' p' hk' hr' he
    subst he
    exact hk' (congrArg Prod.fst
      (List.inj_on_of_nodup_map hrp (mapGet_mem _ _ _ hr') hmem rfl))
  · intro k pid hmem
    have hflush : batchFlush s bname (.thrown e) =
        q.resolvers.foldl (flushErrStep e)
          { s with queues := mapSet s.queues bname ⟨[], [], false⟩ } := by
      unfold batchFlush
      rw [hq]
    rw [hflush]
    exact foldErr_lookup e k pid q.resolvers _ hrp hmem

/-- Concrete instantiation of `C6_batch_flush_settles`: keys `k1`, `k2`
enqueued; a handler resolving only `k1` leaves `k2` rejected with the
missing-result error, and a throwing handler rejects both. -/
theorem C6_batch_flush_settles_witness :
    mapGet (batchFlush
      ((enqueueBatch ((enqueueBatch (⟨[], 0, []⟩ : BatchSys Nat)
        "b" "k1").2) "b" "k2").2) "b" (.ok [("k1", 7)])).settled 0 =
      some (.ok 7) ∧
    mapGet (batchFlush
      ((enqueueBatch ((enqueueBatch (⟨[], 0, []⟩ : BatchSys Nat)
        "b" "k1").2) "b" "k2").2) "b" (.ok [("k1", 7)])).settled 1 =
      some (.err ("Missing batched result for key: " ++ "k2")) ∧
    mapGet (batchFlush
      ((enqueueBatch ((enqueueBatch (⟨[], 0, []⟩ : BatchSys Nat)
        "b" "k1").2) "b" "k2").2) "b" (.thrown "boom")).settled 0 =
      some (.err "boom") ∧
    mapGet (batchFlush
      ((enqueueBatch ((enqueueBatch (⟨[], 0, []⟩ : BatchSys Nat)
        "b" "k1").2) "b" "k2").2) "b" (.thrown "boom")).settled 1 =
      some (.err "boom") := by
  have h := C6_batch_flush_settles
    ((enqueueBatch ((enqueueBatch (⟨[], 0, []⟩ : BatchSys Nat)
      "b" "k1").2) "b" "k2").2) "b" ⟨["k1", "k2"], [("k1", 0), ("k2", 1)], true⟩
    [("k1", 7)] "boom" (by rfl) (by decide) (by decide) (by decide)
    (by decide)
  exact ⟨h.1 "k1" 0 (by decide), h.1 "k2" 1 (by decide),
    h.2 "k1" 0 (by decide), h.2 "k2" 1 (by decide)⟩

/-! ## Claim C7: two enqueues of the same key in one window

The claim fails on the code: `queue.resolvers.set(key, {resolve, reject})`
REPLACES the resolver a previous `enqueueBatch` call registered for the
same key, so only the most recent caller's promise is ever settled by the
flush; the first caller's promise stays pending forever, although both
calls do share the single handler invocation of the window. -/

/-- The code evaluated at the failing input of claim C7: two
`enqueueBatch` calls for `("b", "k")` within one window hand out promises
`0` and `1`; after the flush resolves `"k"` to `42`, promise `1` is
resolved but promise `0` has no settlement at all — the first caller
hangs, contradicting "each caller's returned promise settles" /
"never left pending". -/
theorem C7_duplicate_key_drops_first_resolver :
    (enqueueBatch (⟨[], 0, []⟩ : BatchSys Nat) "b" "k").1 = 0 ∧
    (enqueueBatch ((enqueueBatch (⟨[], 0, []⟩ : BatchSys Nat)
      "b" "k").2) "b" "k").1 = 1 ∧
    mapGet (batchFlush ((enqueueBatch ((enqueueBatch
      (⟨[], 0, []⟩ : BatchSys Nat) "b" "k").2) "b" "k").2) "b"
      (.ok [("k", 42)])).settled 1 = some (.ok 42) ∧
    mapGet (batchFlush ((enqueueBatch ((enqueueBatch
      (⟨[], 0, []⟩ : BatchSys Nat) "b" "k").2) "b" "k").2) "b"
      (.ok [("k", 42)])).settled 0 = none := by
  refine ⟨rfl, rfl, ?_, ?_⟩ <;> rfl

/-! ## Claim C10: the `cached` method decorator

`cached(cacheName, keyGenerator?, options)` replaces the method with
`async function (...args) {
  const key = keyGenerator ? keyGenerator(...args) : JSON.stringify(args)
  return await cacheManager.getOrFetch(cacheName, key,
    async () => await originalMethod.apply(this, args), options) }`.

The argument list is embedded as an opaque type `σ` and `JSON.stringify`
on it as an opaque function `stringify : σ → String` (the key depends on
nothing else); instances are identifiers, and the component
`Option Nat` of a call's result names the instance on which the underlying
method was invoked (the fetcher closure captures `this`, and runs only
when the fetch actually starts). -/

/-- The decorator's cache key:
`keyGenerator ? keyGenerator(...args) : JSON.stringify(args)`. -/
def cachedKey {σ : Type} (stringify : σ → String)
    (keyGenerator : Option (σ → String)) (args : σ) : String :=
  match keyGenerator with
  | some g => g args
  | none => stringify args

/-- Synchronous prefix of a call to the decorated method on instance
`inst`. -/
def cachedCallStart {α σ : Type} (stringify : σ → String)
    (keyGenerator : Option (σ → String)) (cacheName : String)
    (s : FetchSys α) (inst : Nat) (args : σ) (now : Nat) :
    (StartRes α × Option Nat) × FetchSys α :=
  let key := cachedKey stringify keyGenerator args
  let (r, s') := getOrFetchStart s cacheName key now
  ((r, match r with | .started _ => some inst | _ => none), s')

/-- Claim C10 (implicit): with no `keyGenerator`, the decorator's cache
key is computed from the serialized argument list only — the receiver is
not part of it (the produced system state is identical whichever instance
is called).  Hence after instance `inst₁`'s call computes and caches the
result `v`, a call on a different instance `inst₂` with an argument list
serializing to the same key, while the entry is live, returns the cached
`v` and invokes the underlying method on no instance at all. -/
theorem C10_default_key_ignores_receiver {α σ : Type}
    (stringify : σ → String) (cn : String) (s : FetchSys α)
    (inst₁ inst₂ : Nat) (args₁ args₂ : σ) (v : α) (opts : CacheOptions)
    (now t₀ t₁ : Nat)
    (hargs : stringify args₂ = stringify args₁)
    (hc : (cmGet s.cm cn (stringify args₁) now).1 = none)
    (hi : mapGet s.inflight (jsCacheKey cn (stringify args₁)) = none)
    (hlive : t₁ - t₀ ≤ opts.ttl.getD s.cm.defaultTtl) :
    (cachedCallStart stringify none cn s inst₁ args₁ now).2 =
      (cachedCallStart stringify none cn s inst₂ args₁ now).2 ∧
    (cachedCallStart stringify none cn s inst₁ args₁ now).1 =
      (.started s.nextPid, some inst₁) ∧
    (cachedCallStart stringify none cn
      (settleOk ((cachedCallStart stringify none cn s inst₁ args₁ now).2)
        cn (stringify args₁) s.nextPid v opts t₀)
      inst₂ args₂ t₁).1 = (.hit v, none) := by
  have hstart : getOrFetchStart s cn (stringify args₁) now =
      (.started s.nextPid,
        { s with
          cm := (cmGet s.cm cn (stringify args₁) now).2
          inflight := mapSet s.inflight
            (jsCacheKey cn (stringify args₁)) s.nextPid
          nextPid := s.nextPid + 1
          fetchCount := s.fetchCount + 1 }) := by
    simp only [getOrFetchStart]
    rw [show cmGet s.cm cn (stringify args₁) now =
        (none, (cmGet s.cm cn (stringify args₁) now).2) from by
      rcases hres : cmGet s.cm cn (stringify args₁) now with ⟨r, cm'⟩
      rw [hres] at hc; simp at hc; simp [hc]]
    simp [hi]
  refine ⟨rfl, ?_, ?_⟩
  · simp [cachedCallStart, cachedKey, hstart]
  · have hcm : (settleOk ((getOrFetchStart s cn (stringify args₁)
        now).2) cn (stringify args₁) s.nextPid v opts t₀).cm =
        cmSet ((getOrFetchStart s cn (stringify args₁) now).2).cm cn
          (stringify args₁) v opts t₀ := rfl
    have hdefault : ((getOrFetchStart s cn (stringify args₁)
        now).2).cm.defaultTtl = s.cm.defaultTtl := by
      rw [hstart]
      show ((cmGet s.cm cn (stringify args₁) now).2).defaultTtl = _
      unfold cmGet
      rcases mapGet (getCache s.cm cn) (stringify args₁) with _ | entry
      · rfl
      · by_cases hexp : now - entry.timestamp > entry.ttl <;>
          simp [hexp, cmDelete]
    have hlook : mapGet (getCache (settleOk ((getOrFetchStart s cn
        (stringify args₁) now).2) cn (stringify args₁) s.nextPid v
        opts t₀).cm cn) (stringify args₁) =
        some ⟨v, t₀, opts.ttl.getD s.cm.defaultTtl, opts.tags⟩ := by
      rw [hcm, getCache_cmSet_self, hdefault]
      exact mapGet_mapSet_self _ _ _
    have hexp : ¬(t₁ - t₀ > opts.ttl.getD s.cm.defaultTtl) := by omega
    simp only [cachedCallStart, cachedKey, hargs]
    rw [getOrFetchStart_hit _ cn (stringify args₁) t₁
      ⟨v, t₀, opts.ttl.getD s.cm.defaultTtl, opts.tags⟩ hlook hexp]

/-- Concrete instantiation of `C10_default_key_ignores_receiver`:
instances `1` and `2`, argument list `[5]` serialized by `toString`. -/
theorem C10_default_key_ignores_receiver_witness :
    (cachedCallStart (fun l : List Nat => toString l) none "svc"
      (⟨⟨[], [], 300000⟩, [], 0, 0, []⟩ : FetchSys Nat) 1 [5] 10).1 =
      (.started 0, some 1) ∧
    (cachedCallStart (fun l : List Nat => toString l) none "svc"
      (settleOk ((cachedCallStart (fun l : List Nat => toString l) none
        "svc" (⟨⟨[], [], 300000⟩, [], 0, 0, []⟩ : FetchSys Nat) 1 [5]
        10).2) "svc" (toString [5]) 0 42 ⟨some 1000, []⟩ 20)
      2 [5] 30).1 = (.hit 42, none) := by
  have h := C10_default_key_ignores_receiver
    (fun l : List Nat => toString l) "svc"
    (⟨⟨[], [], 300000⟩, [], 0, 0, []⟩ : FetchSys Nat) 1 2 [5] [5] 42
    ⟨some 1000, []⟩ 10 20 30 rfl
    (by simp [cmGet, getCache, mapGet]) rfl (by norm_num)
  exact ⟨h.2.1, h.2.2⟩

/-! ## Claim C8: the stable key encoder

Modelled from the spec: `CacheManager.safeStringify` — the Stable Key
Encoder of spec §4.1 — is absent from the `src/` snapshot (only its unit
test remains, asserting identical output for objects that differ in key
insertion order).  Per §4.1 it serializes an arbitrary JSON-like runtime
value deterministically: object keys are emitted in sorted order
(independent of insertion order), arrays keep element order, and a
reference cycle is replaced by a sentinel marker instead of recursing
forever or throwing.

JavaScript runtime values form a graph, so the model uses an explicit
heap: a value is a reference into `JHeap`; object fields and array
elements are references, which lets the model express cyclic inputs.  The
encoder carries the list of ancestors on the current path (the usual
`WeakSet` cycle guard) and a recursion-depth fuel; the top-level call
supplies fuel `h.length + 1`, which exceeds any acyclic path length. -/

/-- A primitive JSON value. -/
inductive JPrim where
  | null
  | bool (b : Bool)
  | num (n : Int)
  | str (s : String)
  deriving Repr, DecidableEq

/-- One heap node of a JSON-like runtime value: a primitive, an array of
references, or an object whose field list records insertion order. -/
inductive JNode where
  | prim (p : JPrim)
  | arr (elems : List Nat)
  | obj (fields : List (String × Nat))
  deriving Repr, DecidableEq

/-- A heap of JSON nodes addressed by references. -/
abbrev JHeap := List (Nat × JNode)

/-- JSON quoting of a key or string (escaping is irrelevant to the
verified properties and elided). -/
def jsonQuote (s : String) : String := "\"" ++ s ++ "\""

/-- Serialization of a primitive. -/
def encPrim : JPrim → String
  | .null => "null"
  | .bool true => "true"
  | .bool false => "false"
  | .num n => toString n
  | .str s => jsonQuote s

/-- Object fields in ascending key order (`Object.keys(v).sort()`). -/
def sortFields (fs : List (String × Nat)) : List (String × Nat) :=
  List.insertionSort (fun a b => a.1 ≤ b.1) fs

/-- Serialization of one node, given the encoder `enc` for its
children. -/
def encodeNode (enc : Nat → String) : JNode → String
  | .prim p => encPrim p
  | .arr es => "[" ++ String.intercalate "," (es.map enc) ++ "]"
  | .obj fs =>
      "\x7b" ++ String.intercalate ","
        ((sortFields fs).map
          (fun kv => jsonQuote kv.1 ++ ":" ++ enc kv.2)) ++ "\x7d"

/-- The recursive encoder: `seen` is the set of ancestor references on
the current path; a revisited reference yields the sentinel
`"[Circular]"`; a dangling reference serializes as `null`. -/
def encodeRef (h : JHeap) : Nat → List Nat → Nat → String
  | 0, _, _ => "null"
  | fuel + 1, seen, r =>
      if r ∈ seen then jsonQuote "[Circular]"
      else
        match mapGet h r with
        | none => "null"
        | some n => encodeNode (encodeRef h fuel (r :: seen)) n

/-- Modelled from the spec: `CacheManager.safeStringify` applied to the
runtime value rooted at `root` in heap `h`. -/
def safeStringify (h : JHeap) (root : Nat) : String :=
  encodeRef h (h.length + 1) [] root

/-- Two heaps with identical reference structure whose nodes differ only
in object-key insertion order (objects: field lists are permutations of
each other with duplicate-free keys; primitives and arrays: identical). -/
inductive NodePerm : JNode → JNode → Prop where
  | prim (p : JPrim) : NodePerm (.prim p) (.prim p)
  | arr (es : List Nat) : NodePerm (.arr es) (.arr es)
  | obj (fs₁ fs₂ : List (String × Nat)) (hperm : fs₁.Perm fs₂)
      (hnd : (fs₁.map Prod.fst).Nodup) : NodePerm (.obj fs₁) (.obj fs₂)

/-- Heaps related pointwise by `NodePerm` (same references, same order). -/
def HeapPerm (h₁ h₂ : JHeap) : Prop :=
  List.Forall₂ (fun a b => a.1 = b.1 ∧ NodePerm a.2 b.2) h₁ h₂

instance : IsTotal (String × Nat) (fun a b => a.1 ≤ b.1) :=
  ⟨fun a b => le_total a.1 b.1⟩

instance : IsTrans (String × Nat) (fun a b => a.1 ≤ b.1) :=
  ⟨fun _ _ _ hab hbc => le_trans hab hbc⟩

instance : IsAntisymm (String × Nat) (fun a b => a.1 < b.1) :=
  ⟨fun _ _ hab hba => absurd (lt_trans hab hba) (lt_irrefl _)⟩

/-- Sorting by key is insensitive to the input's order when keys are
duplicate-free. -/
theorem sortFields_eq_of_perm (fs₁ fs₂ : List (String × Nat))
    (hperm : fs₁.Perm fs₂) (hnd : (fs₁.map Prod.fst).Nodup) :
    sortFields fs₁ = sortFields fs₂ := by
  have hp : (sortFields fs₁).Perm (sortFields fs₂) :=
    (List.perm_insertionSort _ fs₁).trans
      (hperm.trans (List.perm_insertionSort _ fs₂).symm)
  have hs₁ : List.Sorted (fun a b : String × Nat => a.1 ≤ b.1)
      (sortFields fs₁) := List.sorted_insertionSort _ fs₁
  have hs₂ : List.Sorted (fun a b : String × Nat => a.1 ≤ b.1)
      (sortFields fs₂) := List.sorted_insertionSort _ fs₂
  have hnd₁ : ((sortFields fs₁).map Prod.fst).Nodup :=
    (((List.perm_insertionSort _ fs₁).map Prod.fst).nodup_iff).2 hnd
  have hnd₂ : ((sortFields fs₂).map Prod.fst).Nodup := by
    refine (((List.perm_insertionSort _ fs₂).map Prod.fst).nodup_iff).2 ?_
    exact ((hperm.map Prod.fst).nodup_iff).1 hnd
  have hstrict : ∀ (l : List (String × Nat)),
      List.Sorted (fun a b : String × Nat => a.1 ≤ b.1) l →
      (l.map Prod.fst).Nodup →
      List.Sorted (fun a b : String × Nat => a.1 < b.1) l := by
    intro l hle hnodup
    have hne : l.Pairwise (fun a b : String × Nat => a.1 ≠ b.1) :=
      (List.pairwise_map).1 hnodup
    exact (hle.and hne).imp (fun h => lt_of_le_of_ne h.1 h.2)
  exact List.eq_of_perm_of_sorted hp (hstrict _ hs₁ hnd₁)
    (hstrict _ hs₂ hnd₂)

theorem heapPerm_mapGet (h₁ h₂ : JHeap) (hp : HeapPerm h₁ h₂) (r : Nat) :
    (mapGet h₁ r = none ∧ mapGet h₂ r = none) ∨
    ∃ n₁ n₂, mapGet h₁ r = some n₁ ∧ mapGet h₂ r = some n₂ ∧
      NodePerm n₁ n₂ := by
  induction hp with
  | nil => exact Or.inl ⟨rfl, rfl⟩
  | cons hab hrest ih =>
      rename_i a b l₁ l₂
      obtain ⟨hkey, hnode⟩ := hab
      obtain ⟨ka, na⟩ := a
      obtain ⟨kb, nb⟩ := b
      cases hkey
      by_cases hk : ka = r
      · subst hk
        exact Or.inr ⟨na, nb, by simp [mapGet], by simp [mapGet], hnode⟩
      · simpa [mapGet, hk] using ih

theorem encodeRef_heapPerm (h₁ h₂ : JHeap) (hp : HeapPerm h₁ h₂) :
    ∀ (fuel : Nat) (seen : List Nat) (r : Nat),
    encodeRef h₁ fuel seen r = encodeRef h₂ fuel seen r := by
  intro fuel
  induction fuel with
  | zero => intro seen r; rfl
  | succ fuel ih =>
      intro seen r
      have hfun : encodeRef h₁ fuel = encodeRef h₂ fuel := by
        funext seen' r'
        exact ih seen' r'
      unfold encodeRef
      by_cases hseen : r ∈ seen
      · simp [hseen]
      · simp only [if_neg hseen]
        rcases heapPerm_mapGet h₁ h₂ hp r with ⟨hn₁, hn₂⟩ |
          ⟨n₁, n₂, hs₁, hs₂, hnode⟩
        · rw [hn₁, hn₂]
        · rw [hs₁, hs₂, hfun]
          show encodeNode (encodeRef h₂ fuel (r :: seen)) n₁ =
            encodeNode (encodeRef h₂ fuel (r :: seen)) n₂
          cases hnode with
          | prim p => rfl
          | arr es => rfl
          | obj fs₁ fs₂ hperm hnd =>
              simp only [encodeNode]
              rw [sortFields_eq_of_perm fs₁ fs₂ hperm hnd]

theorem heapPerm_length (h₁ h₂ : JHeap) (hp : HeapPerm h₁ h₂) :
    h₁.length = h₂.length := List.Forall₂.length_eq hp

/-- Claim C8: the stable key encoding satisfies, in one statement:
(1) two JSON-like values with the same data but different object-key
insertion order (pointwise `HeapPerm` heaps) encode to identical strings;
(2) arrays preserve element order — an array node serializes its elements'
encodings in list order, left to right; and (3) a cyclic input is encoded
by substituting the `"[Circular]"` sentinel for a reference back into the
current path (the encoder is a total function: no infinite recursion, no
thrown failure). -/
theorem C8_stable_key_encoder (h₁ h₂ h : JHeap) (root r : Nat)
    (fuel : Nat) (seen : List Nat) (es : List Nat)
    (hp : HeapPerm h₁ h₂)
    (harr : mapGet h r = some (.arr es)) (hseen : r ∉ seen) :
    safeStringify h₁ root = safeStringify h₂ root ∧
    encodeRef h (fuel + 1) seen r =
      "[" ++ String.intercalate ","
        (es.map (encodeRef h fuel (r :: seen))) ++ "]" ∧
    safeStringify [(0, .obj [("self", 0)])] 0 =
      "\x7b\"self\":\"[Circular]\"\x7d" := by
  refine ⟨?_, ?_, rfl⟩
  · unfold safeStringify
    rw [heapPerm_length h₁ h₂ hp]
    exact encodeRef_heapPerm h₁ h₂ hp _ [] root
  · unfold encodeRef
    rw [if_neg hseen, harr]
    rfl

/-- Concrete instantiation of `C8_stable_key_encoder`: the objects
`{b: 1, a: [true, null]}` and `{a: [true, null], b: 1}` (key order
swapped) encode identically, and the array keeps `[true, null]` in
order. -/
theorem C8_stable_key_encoder_witness :
    safeStringify [(0, .obj [("b", 1), ("a", 2)]), (1, .prim (.num 1)),
        (2, .arr [3, 4]), (3, .prim (.bool true)), (4, .prim .null)] 0 =
      safeStringify [(0, .obj [("a", 2), ("b", 1)]), (1, .prim (.num 1)),
        (2, .arr [3, 4]), (3, .prim (.bool true)), (4, .prim .null)] 0 ∧
    encodeRef [(0, .obj [("b", 1), ("a", 2)]), (1, .prim (.num 1)),
        (2, .arr [3, 4]), (3, .prim (.bool true)), (4, .prim .null)]
      (4 + 1) [0] 2 =
      "[" ++ String.intercalate ","
        ([3, 4].map (encodeRef [(0, .obj [("b", 1), ("a", 2)]),
          (1, .prim (.num 1)), (2, .arr [3, 4]), (3, .prim (.bool true)),
          (4, .prim .null)] 4 [2, 0])) ++ "]" ∧
    safeStringify [(0, .obj [("self", 0)])] 0 =
      "\x7b\"self\":\"[Circular]\"\x7d" := by
  have h := C8_stable_key_encoder
    [(0, .obj [("b", 1), ("a", 2)]), (1, .prim (.num 1)),
      (2, .arr [3, 4]), (3, .prim (.bool true)), (4, .prim .null)]
    [(0, .obj [("a", 2), ("b", 1)]), (1, .prim (.num 1)),
      (2, .arr [3, 4]), (3, .prim (.bool true)), (4, .prim .null)]
    [(0, .obj [("b", 1), ("a", 2)]), (1, .prim (.num 1)),
      (2, .arr [3, 4]), (3, .prim (.bool true)), (4, .prim .null)]
    0 2 4 [0] [3, 4]
    (by
      refine List.Forall₂.cons ⟨rfl, ?_⟩ ?_
      · exact NodePerm.obj _ _ (List.Perm.swap _ _ _) (by decide)
      · refine List.Forall₂.cons ⟨rfl, NodePerm.prim _⟩ ?_
        refine List.Forall₂.cons ⟨rfl, NodePerm.arr _⟩ ?_
        refine List.Forall₂.cons ⟨rfl, NodePerm.prim _⟩ ?_
        exact List.Forall₂.cons ⟨rfl, NodePerm.prim _⟩ List.Forall₂.nil)
    (by rfl) (by decide)
  exact h

/-! ## Claim C9: the request batcher routes through `getOrFetch`

Modelled from the spec: `createBatcher` — the Request Batcher factory of
spec §4.4, constructed from a cache namespace, an accumulation delay,
default TTL/tags, and an entry handler — is absent from the `src/`
snapshot (it is imported by `src/lib/services/post-service.ts` and
exercised by `src/lib/__tests__/cache-manager.more.test.ts`, but not
defined in `src/lib/cache-manager.ts`).  Per §4.4, `enqueue(input)`
computes the stable key of `input` and routes through `getOrFetch` on the
batcher's namespace: a live cached value or an in-flight fetch is used
exactly as in §4.3, and only otherwise is the input registered (with its
promise) into the current accumulation window.  When the window flushes,
the handler is invoked once with the swapped-out entries; a resolved
entry's value flows back through the `getOrFetch` success path (cached
under the batcher's namespace, in-flight slot cleared, promise resolved);
an unresolved entry is rejected with the explicit missing-result error. -/

/-- The state of one modelled batcher on top of the fetch system: the
current window's pending entries (stable key and the promise registered
for it by `getOrFetch`), the timer flag, and a handler-invocation
counter. -/
structure BatcherSys (α : Type) where
  fs : FetchSys α
  pending : List (String × Nat)
  timerArmed : Bool
  handlerCalls : Nat
  deriving Repr, DecidableEq

/-- Modelled from the spec (§4.4 steps 1–3): `enqueue(input)` under the
batcher's namespace `cn` with stable-key function `keyFn`. -/
def batcherEnqueue {α σ : Type} (cn : String) (keyFn : σ → String)
    (b : BatcherSys α) (input : σ) (now : Nat) :
    StartRes α × BatcherSys α :=
  let k := keyFn input
  let (r, fs') := getOrFetchStart b.fs cn k now
  match r with
  | .started pid =>
      (r, { b with
        fs := fs'
        pending := b.pending ++ [(k, pid)]
        timerArmed := true })
  | _ => (r, { b with fs := fs' })

/-- Modelled from the spec (§4.4 steps 4–5): the window flush.  The
handler is invoked once with the swapped-out entries; `data` is the map of
stable keys it resolved (or `thrown` its error).  Resolved entries settle
through the `getOrFetch` success continuation (which writes the cache),
unresolved entries are rejected with the missing-result error, and on a
handler error every entry is rejected with it. -/
def batcherFlush {α : Type} (cn : String) (opts : CacheOptions)
    (b : BatcherSys α) (hres : HandlerRes α) (now : Nat) : BatcherSys α :=
  let entries := b.pending
  let b1 : BatcherSys α :=
    { b with
      pending := []
      timerArmed := false
      handlerCalls := b.handlerCalls + 1 }
  match hres with
  | .ok data =>
      entries.foldl
        (fun acc kv =>
          match mapGet data kv.1 with
          | some v =>
              { acc with fs := settleOk acc.fs cn kv.1 kv.2 v opts now }
          | none =>
              { acc with
                fs := settleErr acc.fs cn kv.1 kv.2
                    ("Missing batched result for key: " ++ kv.1) })
        b1
  | .thrown e =>
      entries.foldl
        (fun acc kv =>
          { acc with fs := settleErr acc.fs cn kv.1 kv.2 e })
        b1

/-- Claim C9 (spec-modelled): for a batcher over namespace `cn` with a
fresh window, enqueueing `input` starts a fetch and registers it in the
window without invoking the handler; when the flush fires and the handler
resolves the key to `v`, the handler has run exactly once and the value is
cached under `(cn, key)`; a subsequent enqueue of an input with the same
stable key (while the entry is live) is served from the cache via the
`getOrFetch` path — it returns the cached `v`, registers nothing, and does
not re-invoke the handler.  Moreover an enqueue whose key already has an
in-flight fetch behaves exactly like `getOrFetch`: it joins the existing
promise and registers nothing new in the window. -/
theorem C9_batcher_routes_through_cache {α σ : Type} (cn : String)
    (keyFn : σ → String) (b : BatcherSys α) (input input' input'' : σ)
    (v : α) (opts : CacheOptions) (now t₀ t₁ : Nat)
    (data : List (String × α))
    (hpend : b.pending = [])
    (hk' : keyFn input' = keyFn input) (hk'' : keyFn input'' = keyFn input)
    (hc : (cmGet b.fs.cm cn (keyFn input) now).1 = none)
    (hnd : ((getCache b.fs.cm cn).map Prod.fst).Nodup)
    (hi : mapGet b.fs.inflight (jsCacheKey cn (keyFn input)) = none)
    (hdata : mapGet data (keyFn input) = some v)
    (hlive : t₁ - t₀ ≤ opts.ttl.getD b.fs.cm.defaultTtl) :
    -- the first enqueue starts the fetch and registers it in the window
    (batcherEnqueue cn keyFn b input now).1 = .started b.fs.nextPid ∧
    (batcherEnqueue cn keyFn b input now).2.pending =
      [(keyFn input, b.fs.nextPid)] ∧
    (batcherEnqueue cn keyFn b input now).2.handlerCalls =
      b.handlerCalls ∧
    -- an enqueue while the fetch is in flight joins it, like getOrFetch
    (batcherEnqueue cn keyFn ((batcherEnqueue cn keyFn b input now).2)
      input'' now).1 = .joined b.fs.nextPid ∧
    (batcherEnqueue cn keyFn ((batcherEnqueue cn keyFn b input now).2)
      input'' now).2.pending = [(keyFn input, b.fs.nextPid)] ∧
    -- the flush invokes the handler exactly once
    (batcherFlush cn opts ((batcherEnqueue cn keyFn b input now).2)
      (.ok data) t₀).handlerCalls = b.handlerCalls + 1 ∧
    -- an enqueue after the flush is a cache hit: cached value, nothing
    -- registered, handler not re-invoked
    (batcherEnqueue cn keyFn
      (batcherFlush cn opts ((batcherEnqueue cn keyFn b input now).2)
        (.ok data) t₀) input' t₁).1 = .hit v ∧
    (batcherEnqueue cn keyFn
      (batcherFlush cn opts ((batcherEnqueue cn keyFn b input now).2)
        (.ok data) t₀) input' t₁).2.pending = [] ∧
    (batcherEnqueue cn keyFn
      (batcherFlush cn opts ((batcherEnqueue cn keyFn b input now).2)
        (.ok data) t₀) input' t₁).2.handlerCalls = b.handlerCalls + 1 := by
  have hstart : getOrFetchStart b.fs cn (keyFn input) now =
      (.started b.fs.nextPid,
        { b.fs with
          cm := (cmGet b.fs.cm cn (keyFn input) now).2
          inflight := mapSet b.fs.inflight
            (jsCacheKey cn (keyFn input)) b.fs.nextPid
          nextPid := b.fs.nextPid + 1
          fetchCount := b.fs.fetchCount + 1 }) := by
    simp only [getOrFetchStart]
    rw [show cmGet b.fs.cm cn (keyFn input) now =
        (none, (cmGet b.fs.cm cn (keyFn input) now).2) from by
      rcases hres : cmGet b.fs.cm cn (keyFn input) now with ⟨r, cm'⟩
      rw [hres] at hc; simp at hc; simp [hc]]
    simp [hi]
  have henq1 : batcherEnqueue cn keyFn b input now =
      (.started b.fs.nextPid,
        { fs := { b.fs with
            cm := (cmGet b.fs.cm cn (keyFn input) now).2
            inflight := mapSet b.fs.inflight
              (jsCacheKey cn (keyFn input)) b.fs.nextPid
            nextPid := b.fs.nextPid + 1
            fetchCount := b.fs.fetchCount + 1 }
          pending := b.pending ++ [(keyFn input, b.fs.nextPid)]
          timerArmed := true
          handlerCalls := b.handlerCalls }) := by
    simp [batcherEnqueue, hstart]
  have hc1 : mapGet (getCache ((cmGet b.fs.cm cn (keyFn input) now).2) cn)
      (keyFn input) = none := cmGet_fst_none_lookup b.fs.cm cn _ now hnd hc
  have hflush : batcherFlush cn opts
      ((batcherEnqueue cn keyFn b input now).2) (.ok data) t₀ =
      { fs := settleOk ({ b.fs with
          cm := (cmGet b.fs.cm cn (keyFn input) now).2
          inflight := mapSet b.fs.inflight
            (jsCacheKey cn (keyFn input)) b.fs.nextPid
          nextPid := b.fs.nextPid + 1
          fetchCount := b.fs.fetchCount + 1 }) cn (keyFn input)
          b.fs.nextPid v opts t₀
        pending := []
        timerArmed := false
        handlerCalls := b.handlerCalls + 1 } := by
    rw [henq1]
    simp [batcherFlush, hpend, hdata]
  have hlook : mapGet (getCache (settleOk ({ b.fs with
      cm := (cmGet b.fs.cm cn (keyFn input) now).2
      inflight := mapSet b.fs.inflight
        (jsCacheKey cn (keyFn input)) b.fs.nextPid
      nextPid := b.fs.nextPid + 1
      fetchCount := b.fs.fetchCount + 1 }) cn (keyFn input)
      b.fs.nextPid v opts t₀).cm cn) (keyFn input) =
      some ⟨v, t₀, opts.ttl.getD b.fs.cm.defaultTtl, opts.tags⟩ := by
    rw [show (settleOk ({ b.fs with
        cm := (cmGet b.fs.cm cn (keyFn input) now).2
        inflight := mapSet b.fs.inflight
          (jsCacheKey cn (keyFn input)) b.fs.nextPid
        nextPid := b.fs.nextPid + 1
        fetchCount := b.fs.fetchCount + 1 }) cn (keyFn input)
        b.fs.nextPid v opts t₀).cm =
      cmSet ((cmGet b.fs.cm cn (keyFn input) now).2) cn (keyFn input) v
        opts t₀ from rfl]
    rw [getCache_cmSet_self,
      cmGet_snd_defaultTtl b.fs.cm cn (keyFn input) now]
    exact mapGet_mapSet_self _ _ _
  have hexp : ¬(t₁ - t₀ > opts.ttl.getD b.fs.cm.defaultTtl) := by omega
  have hhit := getOrFetchStart_hit (settleOk ({ b.fs with
      cm := (cmGet b.fs.cm cn (keyFn input) now).2
      inflight := mapSet b.fs.inflight
        (jsCacheKey cn (keyFn input)) b.fs.nextPid
      nextPid := b.fs.nextPid + 1
      fetchCount := b.fs.fetchCount + 1 }) cn (keyFn input)
      b.fs.nextPid v opts t₀) cn (keyFn input) t₁
    ⟨v, t₀, opts.ttl.getD b.fs.cm.defaultTtl, opts.tags⟩ hlook hexp
  have henq3 : batcherEnqueue cn keyFn (batcherFlush cn opts
      ((batcherEnqueue cn keyFn b input now).2) (.ok data) t₀)
      input' t₁ =
      (.hit v, batcherFlush cn opts
        ((batcherEnqueue cn keyFn b input now).2) (.ok data) t₀) := by
    rw [hflush]
    simp only [batcherEnqueue, hk']
    rw [hhit]
  refine ⟨?_, ?_, ?_, ?_, ?_, ?_, ?_, ?_, ?_⟩
  · rw [henq1]
  · rw [henq1]; simp [hpend]
  · rw [henq1]
  · rw [henq1]
    simp only [batcherEnqueue, hk'']
    rw [joined_state_start _ cn (keyFn input) b.fs.nextPid now hc1
      (mapGet_mapSet_self _ _ _)]
  · rw [henq1]
    simp only [batcherEnqueue, hk'']
    rw [joined_state_start _ cn (keyFn input) b.fs.nextPid now hc1
      (mapGet_mapSet_self _ _ _)]
    simp [hpend]
  · rw [hflush]
  · rw [henq3]
  · rw [henq3, hflush]
  · rw [henq3, hflush]

/-- Concrete instantiation of `C9_batcher_routes_through_cache`: input
`7` (stable key `"7"`), handler resolving it to `14`. -/
theorem C9_batcher_routes_through_cache_witness :
    (batcherEnqueue "profiles" (fun n : Nat => toString n)
      (⟨⟨⟨[], [], 300000⟩, [], 0, 0, []⟩, [], false, 0⟩ :
        BatcherSys Nat) 7 10).1 = .started 0 ∧
    (batcherEnqueue "profiles" (fun n : Nat => toString n)
      ((batcherEnqueue "profiles" (fun n : Nat => toString n)
        (⟨⟨⟨[], [], 300000⟩, [], 0, 0, []⟩, [], false, 0⟩ :
          BatcherSys Nat) 7 10).2) 7 10).1 = .joined 0 ∧
    (batcherFlush "profiles" ⟨some 1000, []⟩
      ((batcherEnqueue "profiles" (fun n : Nat => toString n)
        (⟨⟨⟨[], [], 300000⟩, [], 0, 0, []⟩, [], false, 0⟩ :
          BatcherSys Nat) 7 10).2) (.ok [("7", 14)]) 20).handlerCalls =
      1 ∧
    (batcherEnqueue "profiles" (fun n : Nat => toString n)
      (batcherFlush "profiles" ⟨some 1000, []⟩
        ((batcherEnqueue "profiles" (fun n : Nat => toString n)
          (⟨⟨⟨[], [], 300000⟩, [], 0, 0, []⟩, [], false, 0⟩ :
            BatcherSys Nat) 7 10).2) (.ok [("7", 14)]) 20) 7 30).1 =
      .hit 14 ∧
    (batcherEnqueue "profiles" (fun n : Nat => toString n)
      (batcherFlush "profiles" ⟨some 1000, []⟩
        ((batcherEnqueue "profiles" (fun n : Nat => toString n)
          (⟨⟨⟨[], [], 300000⟩, [], 0, 0, []⟩, [], false, 0⟩ :
            BatcherSys Nat) 7 10).2) (.ok [("7", 14)]) 20) 7
      30).2.handlerCalls = 1 := by
  have h := C9_batcher_routes_through_cache "profiles"
    (fun n : Nat => toString n)
    (⟨⟨⟨[], [], 300000⟩, [], 0, 0, []⟩, [], false, 0⟩ : BatcherSys Nat)
    7 7 7 14 ⟨some 1000, []⟩ 10 20 30 [("7", 14)] rfl rfl rfl
    (by simp [cmGet, getCache, mapGet]) (by simp [getCache, mapGet])
    rfl (by decide) (by norm_num)
  exact ⟨h.1, h.2.2.2.1, h.2.2.2.2.2.1, h.2.2.2.2.2.2.1,
    h.2.2.2.2.2.2.2.2⟩

end Yappr
